import Mathlib

/-!
# Verification of the rbxl-to-obj mesh exporter

A shallow embedding of `src/main.rs`: the primitive mesh builders
(`cube_mesh`, `wedge_mesh`, `corner_wedge_mesh`, `cylinder_mesh`,
`sphere_mesh` with its midpoint-cached icosahedron subdivision), the rigid
transform (`apply_matrix3` / `apply_cframe`) and the scene walker
(`export_instance`) with its material deduplication and global
vertex-offset bookkeeping.

Modelling conventions: Rust `f32` scalars are embedded as exact field
elements (`ℚ` for the executable development, `ℝ` where square roots are
interpreted); the transcendental operations of the `f32` type
(`sqrt`, `cos`, `sin`, the constant `PI`) are collected in an `Ops`
record and left as parameters, so every statement quantifies over them
unless it genuinely concerns their values.  `usize` indices are `Nat`.
`Vec` is `List` with pushes modelled as appends at the right end, and the
`HashMap`s (the midpoint cache and the material map, both only ever
queried by key) are association lists.
-/

/-- A 3-component vector, mirroring `rbx_types::Vector3` (fields x, y, z). -/
structure V3 (α : Type) where
  x : α
  y : α
  z : α
deriving DecidableEq, Repr

/-- A 3×3 row-major matrix, mirroring `rbx_types::Matrix3` (rows x, y, z). -/
structure M3 (α : Type) where
  x : V3 α
  y : V3 α
  z : V3 α
deriving DecidableEq, Repr

/-- A rigid placement, mirroring `rbx_types::CFrame`. -/
structure CFrameT (α : Type) where
  position : V3 α
  orientation : M3 α
deriving DecidableEq, Repr

/-- `Matrix3::identity()`. -/
def M3.identity (α : Type) [Field α] : M3 α :=
  ⟨⟨1, 0, 0⟩, ⟨0, 1, 0⟩, ⟨0, 0, 1⟩⟩

/-- The `f32` operations that have no exact field counterpart.  The code
under verification uses `f32::sqrt` (sphere normalisation), `f32::cos`,
`f32::sin` and `std::f32::consts::PI` (cylinder ring); they are kept
abstract so that theorems hold for every interpretation, and are
instantiated with the real functions where their defining properties are
needed. -/
structure Ops (α : Type) where
  sqrt : α → α
  cos : α → α
  sin : α → α
  pi : α

variable {α : Type} [Field α]

/-- `apply_matrix3` from the source: row-major matrix–vector product. -/
def apply_matrix3 (m : M3 α) (v : V3 α) : V3 α :=
  ⟨m.x.x * v.x + m.x.y * v.y + m.x.z * v.z,
   m.y.x * v.x + m.y.y * v.y + m.y.z * v.z,
   m.z.x * v.x + m.z.y * v.y + m.z.z * v.z⟩

/-- `apply_cframe` from the source: rotate, then translate. -/
def apply_cframe (v : V3 α) (cf : CFrameT α) : V3 α :=
  let r := apply_matrix3 cf.orientation v
  ⟨r.x + cf.position.x, r.y + cf.position.y, r.z + cf.position.z⟩

/-- A triangle: three indices into a vertex list (the Rust
`(usize, usize, usize)`). -/
abbrev Tri := Nat × Nat × Nat

/-- `cube_mesh` from the source: 8 corner vertices at half-extents and the
12 triangles exactly as listed there. -/
def cube_mesh (size : V3 α) : List (V3 α) × List Tri :=
  let sx := size.x / 2
  let sy := size.y / 2
  let sz := size.z / 2
  ([⟨-sx, -sy, -sz⟩, ⟨sx, -sy, -sz⟩, ⟨sx, sy, -sz⟩, ⟨-sx, sy, -sz⟩,
    ⟨-sx, -sy, sz⟩, ⟨sx, -sy, sz⟩, ⟨sx, sy, sz⟩, ⟨-sx, sy, sz⟩],
   [(0, 1, 2), (0, 2, 3), (4, 5, 6), (4, 6, 7),
    (0, 1, 5), (0, 5, 4), (1, 2, 6), (1, 6, 5),
    (2, 3, 7), (2, 7, 6), (3, 0, 4), (3, 4, 7)])

/-- `wedge_mesh` from the source: 6 vertices, 8 triangles. -/
def wedge_mesh (size : V3 α) : List (V3 α) × List Tri :=
  let sx := size.x / 2
  let sy := size.y / 2
  let sz := size.z / 2
  ([⟨-sx, -sy, -sz⟩, ⟨sx, -sy, -sz⟩, ⟨sx, -sy, sz⟩,
    ⟨-sx, -sy, sz⟩, ⟨-sx, sy, sz⟩, ⟨sx, sy, sz⟩],
   [(0, 1, 2), (0, 2, 3), (0, 1, 4), (1, 5, 4),
    (3, 2, 5), (3, 5, 4), (0, 3, 4), (1, 2, 5)])

/-- `corner_wedge_mesh` from the source: delegates to `wedge_mesh`. -/
def corner_wedge_mesh (size : V3 α) : List (V3 α) × List Tri :=
  wedge_mesh size

/-- The ring vertices of `cylinder_mesh`: the first `for` loop, pushing two
vertices per radial step (the loop locals `theta`, `cos_theta`,
`sin_theta` are inlined). -/
def cylinder_ring (ops : Ops α) (size : V3 α) (steps : Nat) : List (V3 α) :=
  let x_half := size.x / 2
  let y_half := size.y / 2
  let z_half := size.z / 2
  (List.range steps).foldl
    (fun acc i =>
      acc ++ [⟨-x_half, y_half * ops.cos (2 * ops.pi * (i : α) / (steps : α)),
              z_half * ops.sin (2 * ops.pi * (i : α) / (steps : α))⟩,
              ⟨x_half, y_half * ops.cos (2 * ops.pi * (i : α) / (steps : α)),
              z_half * ops.sin (2 * ops.pi * (i : α) / (steps : α))⟩])
    []

/-- `cylinder_mesh` from the source: ring vertices, two cap centres, then
per step two side triangles and one triangle per cap, with wraparound via
`(i + 1) % steps` (the loop local `next` is inlined). -/
def cylinder_mesh (ops : Ops α) (size : V3 α) (steps : Nat) :
    List (V3 α) × List Tri :=
  let x_half := size.x / 2
  let vertices := cylinder_ring ops size steps ++ [⟨-x_half, 0, 0⟩, ⟨x_half, 0, 0⟩]
  let faces := (List.range steps).foldl
    (fun acc i =>
      acc ++ [(i * 2, (i + 1) % steps * 2, (i + 1) % steps * 2 + 1),
              (i * 2, (i + 1) % steps * 2 + 1, i * 2 + 1),
              (i * 2, (i + 1) % steps * 2, vertices.length - 2),
              (i * 2 + 1, (i + 1) % steps * 2 + 1, vertices.length - 1)])
    []
  (vertices, faces)

/-- The golden-ratio constant `t = (1.0 + 5.0.sqrt()) / 2.0` of
`sphere_mesh`. -/
def icoT (ops : Ops α) : α := (1 + ops.sqrt 5) / 2

/-- The 12 icosahedron vertices of `sphere_mesh`, before normalisation. -/
def icoRawVerts (ops : Ops α) : List (V3 α) :=
  let t := icoT ops
  [⟨-1, t, 0⟩, ⟨1, t, 0⟩, ⟨-1, -t, 0⟩, ⟨1, -t, 0⟩,
   ⟨0, -1, t⟩, ⟨0, 1, t⟩, ⟨0, -1, -t⟩, ⟨0, 1, -t⟩,
   ⟨t, 0, -1⟩, ⟨t, 0, 1⟩, ⟨-t, 0, -1⟩, ⟨-t, 0, 1⟩]

/-- The 20 icosahedron faces of `sphere_mesh`. -/
def icoFaces : List Tri :=
  [(0, 11, 5), (0, 5, 1), (0, 1, 7), (0, 7, 10), (0, 10, 11),
   (1, 5, 9), (5, 11, 4), (11, 10, 2), (10, 7, 6), (7, 1, 8),
   (3, 9, 4), (3, 4, 2), (3, 2, 6), (3, 6, 8), (3, 8, 9),
   (4, 9, 5), (2, 4, 11), (6, 2, 10), (8, 6, 7), (9, 8, 1)]

/-- Division of a vector by the square root of its squared length — the
in-place normalisation loop of `sphere_mesh`. -/
def normalizeV (ops : Ops α) (v : V3 α) : V3 α :=
  let len := ops.sqrt (v.x * v.x + v.y * v.y + v.z * v.z)
  ⟨v.x / len, v.y / len, v.z / len⟩

/-- The midpoint cache: the per-subdivision `HashMap<(usize, usize), usize>`
as an association list. -/
abbrev MidCache := List ((Nat × Nat) × Nat)

/-- Association-list lookup for the midpoint cache. -/
def cacheFind (k : Nat × Nat) : MidCache → Option Nat
  | [] => none
  | (k', v) :: rest => if k' = k then some v else cacheFind k rest

/-- `get_midpoint` from `sphere_mesh`: order-independent key, cache hit
returns the cached index, cache miss normalises the edge midpoint, pushes
it and records its index. -/
def get_midpoint (ops : Ops α) (a b : Nat) (vertices : List (V3 α))
    (cache : MidCache) : Nat × List (V3 α) × MidCache :=
  let key := if a < b then (a, b) else (b, a)
  match cacheFind key cache with
  | some idx => (idx, vertices, cache)
  | none =>
    let va := vertices.getD a ⟨0, 0, 0⟩
    let vb := vertices.getD b ⟨0, 0, 0⟩
    let vm : V3 α := ⟨(va.x + vb.x) / 2, (va.y + vb.y) / 2, (va.z + vb.z) / 2⟩
    let vmn := normalizeV ops vm
    (vertices.length, vertices ++ [vmn], cache ++ [(key, vertices.length)])

/-- The body of one subdivision pass of `sphere_mesh`: walk the current
faces, split each into four via three (cached) midpoints. -/
def subAux (ops : Ops α) :
    List Tri → List (V3 α) → MidCache → List Tri → List (V3 α) × List Tri
  | [], vertices, _, newFaces => (vertices, newFaces)
  | (a, b, c) :: fs, vertices, cache, newFaces =>
    let (ab, vertices1, cache1) := get_midpoint ops a b vertices cache
    let (bc, vertices2, cache2) := get_midpoint ops b c vertices1 cache1
    let (ca, vertices3, cache3) := get_midpoint ops c a vertices2 cache2
    subAux ops fs vertices3 cache3
      (newFaces ++ [(a, ab, ca), (b, bc, ab), (c, ca, bc), (ab, bc, ca)])

/-- One iteration of the `for _ in 0..subdivisions` loop of `sphere_mesh`
(fresh midpoint cache, fresh face accumulator). -/
def subdivideStep (ops : Ops α) (m : List (V3 α) × List Tri) :
    List (V3 α) × List Tri :=
  subAux ops m.2 m.1 [] []

/-- The state of `sphere_mesh` after initial normalisation and `n`
subdivision passes (the mesh before the final per-axis scaling). -/
def sphereLevel (ops : Ops α) : Nat → List (V3 α) × List Tri
  | 0 => ((icoRawVerts ops).map (normalizeV ops), icoFaces)
  | n + 1 => subdivideStep ops (sphereLevel ops n)

/-- `sphere_mesh` from the source: normalised icosahedron, `subdivisions`
passes, then per-axis scaling by `size/2`.  The third parameter is unused
in the source as well. -/
def sphere_mesh (ops : Ops α) (size : V3 α) (subdivisions : Nat)
    (_unused : Nat) : List (V3 α) × List Tri :=
  let radius_x := size.x / 2
  let radius_y := size.y / 2
  let radius_z := size.z / 2
  let m := sphereLevel ops subdivisions
  (m.1.map (fun v => ⟨v.x * radius_x, v.y * radius_y, v.z * radius_z⟩), m.2)

/-- A concrete interpretation of the `f32` operations over `ℚ` used to
evaluate the combinatorial content of the builders (counts, indices) —
which is independent of the interpretation — on concrete inputs. -/
def unitOps : Ops ℚ := ⟨fun _ => 1, fun _ => 1, fun _ => 0, 0⟩

example : ((cube_mesh (⟨2, 2, 2⟩ : V3 ℚ)).1).length = 8 := by decide
example : ((sphereLevel unitOps 0).1).length = 12 := by decide
example : ((sphereLevel unitOps 0).2).length = 20 := by decide

/-!
## Scene model and exporter

The exporter proper works over `ℚ` (the executable embedding of exact
`f32` arithmetic), with the transcendental `f32` operations still
abstract.  `WeakDom` is embedded as a table of referenced instances plus
the root's child list; `rbx_types::Variant` keeps exactly the variants the
code matches on, plus a catch-all for every other variant type.
-/

/-- The property values the exporter inspects (`rbx_types::Variant`);
`other` stands for every variant the code does not match on. -/
inductive VariantT
  | vector3 (v : V3 ℚ)
  | cframe (cf : CFrameT ℚ)
  | color3uint8 (r g b : Nat)
  | float32 (t : ℚ)
  | enum (e : Nat)
  | other
deriving DecidableEq

/-- One instance of the DOM: class name, property table, child
references. -/
structure Inst where
  klass : String
  props : List (String × VariantT)
  children : List Nat
deriving DecidableEq

/-- The `WeakDom`: the root's children plus a table mapping references to
instances. -/
structure Dom where
  rootChildren : List Nat
  insts : List (Nat × Inst)
deriving DecidableEq

/-- `dom.get_by_ref`. -/
def findInst (dom : Dom) (r : Nat) : Option Inst :=
  (dom.insts.find? (fun p => p.1 = r)).map Prod.snd

/-- `inst.properties.get(&Ustr::from(key))`. -/
def plookup (key : String) : List (String × VariantT) → Option VariantT
  | [] => none
  | (k, v) :: rest => if k = key then some v else plookup key rest

/-- The `Size` match: a `Vector3` variant, else the `(1,1,1)` default. -/
def getSize (props : List (String × VariantT)) : V3 ℚ :=
  match plookup "Size" props with
  | some (VariantT.vector3 v) => v
  | _ => ⟨1, 1, 1⟩

/-- The `CFrame` match: a `CFrame` variant, else identity at the
origin. -/
def getCFrame (props : List (String × VariantT)) : CFrameT ℚ :=
  match plookup "CFrame" props with
  | some (VariantT.cframe cf) => cf
  | _ => ⟨⟨0, 0, 0⟩, M3.identity ℚ⟩

/-- The `Color` match: a `Color3uint8` variant, else white. -/
def getColor (props : List (String × VariantT)) : Nat × Nat × Nat :=
  match plookup "Color" props with
  | some (VariantT.color3uint8 r g b) => (r, g, b)
  | _ => (255, 255, 255)

/-- The `Transparency` match: a `Float32` variant, else `0.0`. -/
def getTransparency (props : List (String × VariantT)) : ℚ :=
  match plookup "Transparency" props with
  | some (VariantT.float32 t) => t
  | _ => 0

/-- The `Shape` match: an `Enum` variant's value, else `1` (the box). -/
def getShape (props : List (String × VariantT)) : Nat :=
  match plookup "Shape" props with
  | some (VariantT.enum e) => e
  | _ => 1

/-- Rust's saturating `f32 as u8` cast on an exact value: truncation
toward zero, clamped to `[0, 255]`. -/
def rustCastU8 (q : ℚ) : Nat := min 255 (Int.toNat ⌊q⌋)

/-- The material key `(r, g, b, a)` computed for a recognised instance:
colour bytes plus the alpha byte `((1.0 - transparency) * 255.0) as u8`. -/
def matKey (inst : Inst) : Nat × Nat × Nat × Nat :=
  let c := getColor inst.props
  (c.1, c.2.1, c.2.2, rustCastU8 ((1 - getTransparency inst.props) * 255))

/-- The mesh selected for a recognised instance: `Part` dispatches on the
`Shape` enum (0 sphere, 1 box, 2 cylinder, box fallback), the wedge
classes use their builders, and the final arm mirrors the source's
unreachable `_ => cube_mesh(size)`. -/
def localMesh (ops : Ops ℚ) (klass : String)
    (props : List (String × VariantT)) (size : V3 ℚ) :
    List (V3 ℚ) × List Tri :=
  match klass with
  | "Part" =>
    match getShape props with
    | 0 => sphere_mesh ops size 2 0
    | 1 => cube_mesh size
    | 2 => cylinder_mesh ops size 24
    | _ => cube_mesh size
  | "WedgePart" => wedge_mesh size
  | "CornerWedgePart" => corner_wedge_mesh size
  | _ => cube_mesh size

/-- One line of the OBJ output: a `usemtl` directive, a vertex line, or a
face line carrying the already-shifted 1-based indices. -/
inductive ObjLine
  | usemtl (name : String)
  | v (pos : V3 ℚ)
  | f (i j k : Nat)
deriving DecidableEq

/-- One material block of the MTL output: `newmtl`, the normalised
diffuse `Kd`, and the dissolve `d`. -/
structure MtlEntry where
  name : String
  kd : V3 ℚ
  d : ℚ
deriving DecidableEq

/-- The MTL block written on first encounter of a key: colour channels and
alpha divided by 255. -/
def matDefOf (key : Nat × Nat × Nat × Nat) (name : String) : MtlEntry :=
  ⟨name, ⟨(key.1 : ℚ) / 255, (key.2.1 : ℚ) / 255, (key.2.2.1 : ℚ) / 255⟩,
   (key.2.2.2 : ℚ) / 255⟩

/-- The material map: the `HashMap<(u8,u8,u8,u8), String>` as an
association list in insertion order. -/
abbrev MatMap := List ((Nat × Nat × Nat × Nat) × String)

/-- Association-list lookup for the material map. -/
def mlookup (k : Nat × Nat × Nat × Nat) : MatMap → Option String
  | [] => none
  | (k', v) :: rest => if k' = k then some v else mlookup k rest

/-- The mutable context threaded through `export_instance`: the two output
files, the running vertex offset, the material map and the next material
id. -/
structure ExportState where
  obj : List ObjLine
  mtl : List MtlEntry
  vertex_offset : Nat
  material_map : MatMap
  next_mat_id : Nat
deriving DecidableEq

/-- The name an instance's key resolves to in a given state: the mapped
name on a cache hit, the next sequential `mat_<id>` otherwise (the
`entry(..).or_insert_with(..)` of the source). -/
def assignedName (st : ExportState) (key : Nat × Nat × Nat × Nat) : String :=
  (mlookup key st.material_map).getD ("mat_" ++ toString st.next_mat_id)

/-- The recognised-class body of `export_instance` (lines 71–149 of the
source): resolve properties, deduplicate the material (emitting its MTL
block on first encounter), emit `usemtl`, emit transformed vertices, emit
offset-shifted 1-based faces, advance the offset. -/
def emitPart (ops : Ops ℚ) (st : ExportState) (inst : Inst) : ExportState :=
  let size := getSize inst.props
  let cframe := getCFrame inst.props
  let key := matKey inst
  let hit := mlookup key st.material_map
  let name := assignedName st key
  let mtl' := match hit with
    | some _ => st.mtl
    | none => st.mtl ++ [matDefOf key name]
  let map' := match hit with
    | some _ => st.material_map
    | none => st.material_map ++ [(key, name)]
  let next' := match hit with
    | some _ => st.next_mat_id
    | none => st.next_mat_id + 1
  let m := localMesh ops inst.klass inst.props size
  let vlines := m.1.map (fun v => ObjLine.v (apply_cframe v cframe))
  let flines := m.2.map (fun f =>
    ObjLine.f (f.1 + st.vertex_offset + 1) (f.2.1 + st.vertex_offset + 1)
      (f.2.2 + st.vertex_offset + 1))
  { obj := st.obj ++ ObjLine.usemtl name :: (vlines ++ flines)
    mtl := mtl'
    vertex_offset := st.vertex_offset + m.1.length
    material_map := map'
    next_mat_id := next' }

/-- Whether a class name matches the `"Part" | "WedgePart" |
"CornerWedgePart"` arm. -/
def isPartClass (klass : String) : Bool :=
  klass = "Part" || klass = "WedgePart" || klass = "CornerWedgePart"

/-- How a run of the embedded exporter can stop early: the
`dom.get_by_ref(..).unwrap()` panic, or exhaustion of the recursion-depth
fuel (the embedding of unbounded Rust recursion). -/
inductive ExpErr
  | lookupFailed
  | outOfFuel
deriving DecidableEq

/-- `export_instance` from the source, with explicit recursion fuel: look
the reference up (`unwrap` becomes `lookupFailed`), run the
recognised-class body if the class matches, then fold over the children
propagating the first error (`?`) while keeping the state written so
far. -/
def export_instance (ops : Ops ℚ) :
    Nat → Dom → Nat → ExportState → ExportState × Option ExpErr
  | 0, _, _, st => (st, some ExpErr.outOfFuel)
  | fuel + 1, dom, r, st =>
    match findInst dom r with
    | none => (st, some ExpErr.lookupFailed)
    | some inst =>
      let st1 := if isPartClass inst.klass then emitPart ops st inst else st
      inst.children.foldl
        (fun acc c =>
          match acc with
          | (s, some e) => (s, some e)
          | (s, none) => export_instance ops fuel dom c s)
        (st1, none)

/-- The child-list fold of `export_instance` (and of `main`'s root loop),
as a standalone function for reasoning. -/
def goChildren (ops : Ops ℚ) (fuel : Nat) (dom : Dom) (refs : List Nat)
    (acc : ExportState × Option ExpErr) : ExportState × Option ExpErr :=
  refs.foldl
    (fun acc c =>
      match acc with
      | (s, some e) => (s, some e)
      | (s, none) => export_instance ops fuel dom c s)
    acc

/-- The state `main` sets up before the traversal. -/
def initState : ExportState := ⟨[], [], 0, [], 0⟩

/-- `main`'s traversal: run `export_instance` over the root's children
starting from the empty buffers. -/
def exportTop (ops : Ops ℚ) (fuel : Nat) (dom : Dom) :
    ExportState × Option ExpErr :=
  goChildren ops fuel dom dom.rootChildren (initState, none)

/-- Unfolding of `export_instance` at positive fuel in terms of
`goChildren`. -/
theorem export_instance_succ (ops : Ops ℚ) (fuel : Nat) (dom : Dom) (r : Nat)
    (st : ExportState) :
    export_instance ops (fuel + 1) dom r st =
      match findInst dom r with
      | none => (st, some ExpErr.lookupFailed)
      | some inst =>
        goChildren ops fuel dom inst.children
          ((if isPartClass inst.klass then emitPart ops st inst else st), none) := by
  cases h : findInst dom r <;> simp [export_instance, goChildren, h]

/-!
## C8: CornerWedge is extensionally the Wedge builder
-/

/-- C8: for every size vector, `corner_wedge_mesh` returns exactly the
same vertex list and triangle list as `wedge_mesh`. -/
theorem c8_corner_wedge_is_wedge {α : Type} [Field α] (size : V3 α) :
    corner_wedge_mesh size = wedge_mesh size := rfl

/-!
## C5: midpoint lookup is symmetric in the edge endpoints
-/

/-- C5: within one `sphere_mesh` build, requesting the midpoint of `(a,b)`
and of `(b,a)` from the same vertex list and cache produces the identical
result — the same vertex index, the same vertex list and the same cache —
so a shared edge never creates two distinct midpoint vertices. -/
theorem c5_midpoint_symmetric {α : Type} [Field α] (ops : Ops α)
    (a b : Nat) (vertices : List (V3 α)) (cache : MidCache) :
    get_midpoint ops a b vertices cache = get_midpoint ops b a vertices cache := by
  have hkey : (if a < b then (a, b) else (b, a)) =
      (if b < a then (b, a) else (a, b)) := by
    rcases Nat.lt_trichotomy a b with h | h | h
    · simp [h, Nat.lt_asymm h]
    · simp [h]
    · simp [h, Nat.lt_asymm h]
  unfold get_midpoint
  rw [hkey]
  cases h : cacheFind (if b < a then (b, a) else (a, b)) cache with
  | some idx => simp only [h]
  | none => simp only [h, add_comm]

/-!
## C3: the alpha byte

The source computes `((1.0 - transparency) * 255.0) as u8`; Rust's
`as u8` cast on a float truncates toward zero (saturating), it does not
round to nearest.
-/

/-- C3 counterexample: at `Transparency = 1/2` the program's alpha byte is
`⌊127.5⌋ = 127`, while `round((1 - 1/2) * 255) = 128`, so the alpha byte
is not `round((1 - t) * 255)`. -/
theorem c3_alpha_not_round :
    (matKey ⟨"Part", [("Transparency", VariantT.float32 (1 / 2))], []⟩).2.2.2 ≠
      Int.toNat (round ((1 -
        getTransparency [("Transparency", VariantT.float32 (1 / 2))]) * 255)) := by
  have h2 : getTransparency [("Transparency", VariantT.float32 (1 / 2))]
      = 1 / 2 := by simp [getTransparency, plookup]
  have h1 : (matKey ⟨"Part", [("Transparency", VariantT.float32 (1 / 2))], []⟩).2.2.2
      = 127 := by
    show rustCastU8 _ = 127
    unfold rustCastU8
    rw [h2]
    norm_num
    rfl
  have h3 : round ((1 - (1 / 2 : ℚ)) * 255) = 128 := by
    rw [round_eq]; norm_num
  rw [h1, h2, h3]
  decide

/-- C3 amended: for every recognised instance whose `Transparency`
property is a float `t ∈ [0, 1]`, the alpha byte used in the material key
equals the *truncation* `⌊(1 - t) * 255⌋` (not the rounding) of
`(1 - t) * 255`, and the material definition's dissolve value is exactly
that byte divided by 255. -/
theorem c3_alpha_is_truncation (inst : Inst) (t : ℚ) (name : String)
    (hp : plookup "Transparency" inst.props = some (VariantT.float32 t))
    (h0 : 0 ≤ t) (h1 : t ≤ 1) :
    (matKey inst).2.2.2 = Int.toNat ⌊(1 - t) * 255⌋ ∧
      (matDefOf (matKey inst) name).d = ((matKey inst).2.2.2 : ℚ) / 255 := by
  have ht : getTransparency inst.props = t := by
    unfold getTransparency
    rw [hp]
  constructor
  · show rustCastU8 ((1 - getTransparency inst.props) * 255) = _
    rw [ht]
    unfold rustCastU8
    have hle : (1 - t) * 255 ≤ 255 := by nlinarith
    have hfle : ⌊(1 - t) * 255⌋ ≤ 255 := by
      calc ⌊(1 - t) * 255⌋ ≤ ⌊(255 : ℚ)⌋ := Int.floor_le_floor hle
        _ = 255 := by norm_num
    have : Int.toNat ⌊(1 - t) * 255⌋ ≤ 255 := by omega
    omega
  · rfl

/-- Witness for `c3_alpha_is_truncation` at `t = 1/4`: the hypotheses hold
and the alpha byte is the truncated value. -/
theorem c3_alpha_is_truncation_witness :
    (matKey ⟨"Part", [("Transparency", VariantT.float32 (1 / 4))], []⟩).2.2.2 =
      Int.toNat ⌊(1 - (1 / 4 : ℚ)) * 255⌋ :=
  (c3_alpha_is_truncation
    ⟨"Part", [("Transparency", VariantT.float32 (1 / 4))], []⟩ (1 / 4) "m"
    (by simp [plookup]) (by norm_num) (by norm_num)).1

/-!
## C9: property-shape mismatches default silently and are never fatal
-/

/-- Replace every instance's property table in a DOM, keeping classes,
references and children: the vehicle for showing that the walker's
control flow (and hence any failure) never depends on properties. -/
def mapDomProps (g : List (String × VariantT) → List (String × VariantT))
    (dom : Dom) : Dom :=
  ⟨dom.rootChildren,
   dom.insts.map (fun p => (p.1, ⟨p.2.klass, g p.2.props, p.2.children⟩))⟩

theorem findInst_mapDomProps (g : List (String × VariantT) → List (String × VariantT))
    (dom : Dom) (r : Nat) :
    findInst (mapDomProps g dom) r =
      (findInst dom r).map (fun i => ⟨i.klass, g i.props, i.children⟩) := by
  unfold findInst mapDomProps
  induction dom.insts with
  | nil => rfl
  | cons p rest ih =>
    by_cases h : p.1 = r <;> simp_all [List.find?]

/-- The error component of a run depends only on the DOM's structure
(classes, references, children), never on property tables or on the
incoming state. -/
theorem export_err_ignores_props
    (ops ops' : Ops ℚ)
    (g : List (String × VariantT) → List (String × VariantT)) :
    ∀ (fuel : Nat) (dom : Dom) (r : Nat) (st st' : ExportState),
      (export_instance ops fuel (mapDomProps g dom) r st).2 =
        (export_instance ops' fuel dom r st').2 := by
  intro fuel
  induction fuel with
  | zero => intro dom r st st'; rfl
  | succ fuel ih =>
    intro dom r st st'
    rw [export_instance_succ, export_instance_succ, findInst_mapDomProps]
    cases h : findInst dom r with
    | none => rfl
    | some inst =>
      simp only [Option.map_some]
      show (goChildren ops fuel (mapDomProps g dom) inst.children _).2 =
        (goChildren ops' fuel dom inst.children _).2
      generalize (if isPartClass inst.klass then emitPart ops st ⟨inst.klass, g inst.props, inst.children⟩ else st) = s1
      generalize (if isPartClass inst.klass then emitPart ops' st' inst else st') = s2
      have : ∀ (cs : List Nat) (a1 a2 : ExportState × Option ExpErr),
          a1.2 = a2.2 →
          (goChildren ops fuel (mapDomProps g dom) cs a1).2 =
            (goChildren ops' fuel dom cs a2).2 := by
        intro cs
        induction cs with
        | nil => intro a1 a2 h; exact h
        | cons c cs ihc =>
          intro a1 a2 hacc
          obtain ⟨s1', e1⟩ := a1
          obtain ⟨s2', e2⟩ := a2
          simp only at hacc
          subst hacc
          cases e1 with
          | some e =>
            show (goChildren _ _ _ cs (s1', some e)).2 = (goChildren _ _ _ cs (s2', some e)).2
            exact ihc _ _ rfl
          | none =>
            show (goChildren _ _ _ cs (export_instance ops fuel _ c s1')).2 =
              (goChildren _ _ _ cs (export_instance ops' fuel dom c s2')).2
            exact ihc _ _ (ih dom c s1' s2')
      exact this inst.children (s1, none) (s2, none) rfl

/-- C9: a property that is absent or carries the wrong variant type is
silently replaced by its documented default — size `(1,1,1)`, placement
identity-at-origin, colour white `(255,255,255)`, opacity complement
`0.0` — and properties (hence any property mismatch) can never change
whether the conversion fails: the run's error outcome is invariant under
arbitrary rewriting of every property table. -/
theorem c9_defaults_never_fatal :
    (∀ props, (∀ v, plookup "Size" props ≠ some (VariantT.vector3 v)) →
      getSize props = ⟨1, 1, 1⟩) ∧
    (∀ props, (∀ cf, plookup "CFrame" props ≠ some (VariantT.cframe cf)) →
      getCFrame props = ⟨⟨0, 0, 0⟩, M3.identity ℚ⟩) ∧
    (∀ props, (∀ r g b, plookup "Color" props ≠ some (VariantT.color3uint8 r g b)) →
      getColor props = (255, 255, 255)) ∧
    (∀ props, (∀ t, plookup "Transparency" props ≠ some (VariantT.float32 t)) →
      getTransparency props = 0) ∧
    (∀ ops g fuel dom r st,
      (export_instance ops fuel (mapDomProps g dom) r st).2 =
        (export_instance ops fuel dom r st).2) := by
  refine ⟨?_, ?_, ?_, ?_, ?_⟩
  · intro props h
    unfold getSize
    cases hv : plookup "Size" props with
    | none => rfl
    | some v => cases v <;> first | rfl | exact absurd hv (h _)
  · intro props h
    unfold getCFrame
    cases hv : plookup "CFrame" props with
    | none => rfl
    | some v => cases v <;> first | rfl | exact absurd hv (h _)
  · intro props h
    unfold getColor
    cases hv : plookup "Color" props with
    | none => rfl
    | some v => cases v <;> first | rfl | exact absurd hv (h _ _ _)
  · intro props h
    unfold getTransparency
    cases hv : plookup "Transparency" props with
    | none => rfl
    | some v => cases v <;> first | rfl | exact absurd hv (h _)
  · intro ops g fuel dom r st
    exact export_err_ignores_props ops ops g fuel dom r st st

/-- Witness for `c9_defaults_never_fatal`: a size stored as a float (the
wrong variant type) resolves to the default `(1,1,1)`. -/
theorem c9_defaults_never_fatal_witness :
    getSize [("Size", VariantT.float32 7)] = ⟨1, 1, 1⟩ :=
  c9_defaults_never_fatal.1 [("Size", VariantT.float32 7)]
    (by intro v; simp [plookup])

/-!
## C10: the `unwrap` at the top of `export_instance` is unreachable
-/

/-- The precondition of the claim: every reference handed to
`export_instance` comes from the same `WeakDom` — the root's children and
each contained instance's children all resolve in the DOM. -/
def wfDom (dom : Dom) : Prop :=
  (∀ r ∈ dom.rootChildren, (findInst dom r).isSome) ∧
    (∀ p ∈ dom.insts, ∀ c ∈ p.2.children, (findInst dom c).isSome)

theorem findInst_mem (dom : Dom) (r : Nat) (inst : Inst)
    (h : findInst dom r = some inst) : (r, inst) ∈ dom.insts := by
  unfold findInst at h
  obtain ⟨p, hfind, hsnd⟩ := Option.map_eq_some'.mp h
  have hmem := List.mem_of_find?_eq_some hfind
  have hkey := List.find?_some hfind
  simp only [decide_eq_true_eq] at hkey
  obtain ⟨p1, p2⟩ := p
  simp only at hsnd hkey
  subst hsnd hkey
  exact hmem

/-- C10: in a well-formed DOM, `export_instance` started at any reference
that resolves (in particular every root child and every child of a visited
instance) never stops with `lookupFailed`: the `unwrap` error branch is
unreachable for every tree reachable this way, whatever the recursion
fuel, and so is it for `main`'s whole traversal `exportTop`. -/
theorem c10_unwrap_unreachable (ops : Ops ℚ) (dom : Dom) (hwf : wfDom dom) :
    (∀ fuel r st, (findInst dom r).isSome →
      (export_instance ops fuel dom r st).2 ≠ some ExpErr.lookupFailed) ∧
    (∀ fuel, (exportTop ops fuel dom).2 ≠ some ExpErr.lookupFailed) := by
  have main : ∀ fuel r st, (findInst dom r).isSome →
      (export_instance ops fuel dom r st).2 ≠ some ExpErr.lookupFailed := by
    intro fuel
    induction fuel with
    | zero => intro r st _ h; simp [export_instance] at h
    | succ fuel ih =>
      intro r st hr
      rw [export_instance_succ]
      cases h : findInst dom r with
      | none => rw [h] at hr; simp at hr
      | some inst =>
        have hmem := findInst_mem dom r inst h
        have hch : ∀ c ∈ inst.children, (findInst dom c).isSome :=
          fun c hc => hwf.2 (r, inst) hmem c hc
        intro hbad
        have hgo : ∀ (cs : List Nat), (∀ c ∈ cs, (findInst dom c).isSome) →
            ∀ (a : ExportState × Option ExpErr),
              a.2 ≠ some ExpErr.lookupFailed →
              (goChildren ops fuel dom cs a).2 ≠ some ExpErr.lookupFailed := by
          intro cs
          induction cs with
          | nil => intro _ a ha; exact ha
          | cons c cs ihc =>
            intro hcs a ha
            obtain ⟨s, e⟩ := a
            cases e with
            | some err =>
              show (goChildren ops fuel dom cs (s, some err)).2 ≠ _
              exact ihc (fun c hc => hcs c (List.mem_cons_of_mem _ hc)) _ ha
            | none =>
              show (goChildren ops fuel dom cs (export_instance ops fuel dom c s)).2 ≠ _
              exact ihc (fun c hc => hcs c (List.mem_cons_of_mem _ hc)) _
                (ih c s (hcs c (List.mem_cons_self c cs)))
        exact hgo inst.children hch _ (by simp) hbad
  refine ⟨main, fun fuel => ?_⟩
  unfold exportTop
  have hgo : ∀ (cs : List Nat), (∀ c ∈ cs, (findInst dom c).isSome) →
      ∀ (a : ExportState × Option ExpErr),
        a.2 ≠ some ExpErr.lookupFailed →
        (goChildren ops fuel dom cs a).2 ≠ some ExpErr.lookupFailed := by
    intro cs
    induction cs with
    | nil => intro _ a ha; exact ha
    | cons c cs ihc =>
      intro hcs a ha
      obtain ⟨s, e⟩ := a
      cases e with
      | some err =>
        show (goChildren ops fuel dom cs (s, some err)).2 ≠ _
        exact ihc (fun c hc => hcs c (List.mem_cons_of_mem _ hc)) _ ha
      | none =>
        show (goChildren ops fuel dom cs (export_instance ops fuel dom c s)).2 ≠ _
        exact ihc (fun c hc => hcs c (List.mem_cons_of_mem _ hc)) _
          (main fuel c s (hcs c (List.mem_cons_self c cs)))
  exact hgo dom.rootChildren (fun c hc => hwf.1 c hc) _ (by simp)

/-- Witness for `c10_unwrap_unreachable`: a concrete two-node well-formed
DOM (a `Part` whose child is a `WedgePart`) never hits the `unwrap`
branch, at any fuel up to exhaustion; shown here at fuel 5. -/
theorem c10_unwrap_unreachable_witness :
    (exportTop unitOps 5 ⟨[1], [(1, ⟨"Part", [], [2]⟩), (2, ⟨"WedgePart", [], []⟩)]⟩).2 ≠
      some ExpErr.lookupFailed :=
  (c10_unwrap_unreachable unitOps
    ⟨[1], [(1, ⟨"Part", [], [2]⟩), (2, ⟨"WedgePart", [], []⟩)]⟩
    (by constructor
        · intro r hr
          simp only [List.mem_singleton] at hr
          subst hr
          decide
        · intro p hp c hc
          simp only [List.mem_cons, List.mem_singleton] at hp
          rcases hp with h | h | h
          · subst h
            simp only [List.mem_singleton] at hc
            subst hc
            decide
          · subst h
            simp at hc
          · simp at h)).2 5

/-!
## C6: the cube

The 8 vertices lie in the size box and every undirected edge is shared by
exactly two of the 12 triangles; but the winding is not globally
consistent (the directed edge `0 → 1` is traversed in the same direction
by two faces), so the triangles do not form an outward-oriented manifold.
-/

/-- The order-independent key of an edge, as in the midpoint cache. -/
def ekey (a b : Nat) : Nat × Nat := if a < b then (a, b) else (b, a)

/-- The three undirected edges of each triangle of a face list. -/
def undirEdges (fs : List Tri) : List (Nat × Nat) :=
  fs.flatMap (fun f => [ekey f.1 f.2.1, ekey f.2.1 f.2.2, ekey f.2.2 f.1])

/-- The three directed boundary edges of each triangle of a face list. -/
def dirEdges (fs : List Tri) : List (Nat × Nat) :=
  fs.flatMap (fun f => [(f.1, f.2.1), (f.2.1, f.2.2), (f.2.2, f.1)])

/-- Closed/watertight: every undirected edge is shared by exactly two
triangles. -/
def watertight (fs : List Tri) : Prop :=
  ∀ e ∈ undirEdges fs, (undirEdges fs).count e = 2

instance (fs : List Tri) : Decidable (watertight fs) :=
  List.decidableBAll _ _

/-- Globally consistent winding (necessary for an outward-oriented closed
manifold): every directed edge occurs exactly once, and its reverse
exactly once. -/
def consistentlyOriented (fs : List Tri) : Prop :=
  ∀ e ∈ dirEdges fs,
    (dirEdges fs).count e = 1 ∧ (dirEdges fs).count (e.2, e.1) = 1

instance (fs : List Tri) : Decidable (consistentlyOriented fs) :=
  List.decidableBAll _ _

/-- C6 counterexample: the cube's 12 triangles are not consistently
wound — two faces traverse the shared edge `{0, 1}` in the same direction
— so they do not form an outward-oriented manifold. -/
theorem c6_cube_not_oriented :
    ¬ consistentlyOriented (cube_mesh (⟨2, 2, 2⟩ : V3 ℚ)).2 := by
  intro h
  have h01 := h (0, 1) (by decide)
  have : (dirEdges (cube_mesh (⟨2, 2, 2⟩ : V3 ℚ)).2).count (0, 1) = 2 := by decide
  omega

/-- C6 amended: for every size with non-negative components, `cube_mesh`
produces exactly 8 vertices, each within
`[-sx/2, sx/2] × [-sy/2, sy/2] × [-sz/2, sz/2]`, and exactly 12 triangles
in which every undirected edge is shared by exactly 2 triangles (closed
and watertight); the winding, however, is not globally consistent, so the
mesh is not outward-oriented. -/
theorem c6_cube_mesh (size : V3 ℚ)
    (hx : 0 ≤ size.x) (hy : 0 ≤ size.y) (hz : 0 ≤ size.z) :
    (cube_mesh size).1.length = 8 ∧
    (cube_mesh size).2.length = 12 ∧
    (∀ v ∈ (cube_mesh size).1,
      -(size.x / 2) ≤ v.x ∧ v.x ≤ size.x / 2 ∧
      -(size.y / 2) ≤ v.y ∧ v.y ≤ size.y / 2 ∧
      -(size.z / 2) ≤ v.z ∧ v.z ≤ size.z / 2) ∧
    watertight (cube_mesh size).2 ∧
    ¬ consistentlyOriented (cube_mesh size).2 := by
  have hbx : -(size.x / 2) ≤ size.x / 2 := by linarith
  have hby : -(size.y / 2) ≤ size.y / 2 := by linarith
  have hbz : -(size.z / 2) ≤ size.z / 2 := by linarith
  refine ⟨rfl, rfl, ?_, ?_, ?_⟩
  · intro v hv
    simp only [cube_mesh, List.mem_cons, List.not_mem_nil, or_false] at hv
    rcases hv with h | h | h | h | h | h | h | h <;> subst h <;>
      exact ⟨by linarith, by linarith, by linarith, by linarith, by linarith, by linarith⟩
  · show watertight [(0, 1, 2), (0, 2, 3), (4, 5, 6), (4, 6, 7),
      (0, 1, 5), (0, 5, 4), (1, 2, 6), (1, 6, 5),
      (2, 3, 7), (2, 7, 6), (3, 0, 4), (3, 4, 7)]
    decide
  · show ¬ consistentlyOriented [(0, 1, 2), (0, 2, 3), (4, 5, 6), (4, 6, 7),
      (0, 1, 5), (0, 5, 4), (1, 2, 6), (1, 6, 5),
      (2, 3, 7), (2, 7, 6), (3, 0, 4), (3, 4, 7)]
    decide

/-- Witness for `c6_cube_mesh` at size `(2, 4, 6)`: counts, box bounds and
watertightness of the concrete cube. -/
theorem c6_cube_mesh_witness :
    (cube_mesh (⟨2, 4, 6⟩ : V3 ℚ)).1.length = 8 ∧
    watertight (cube_mesh (⟨2, 4, 6⟩ : V3 ℚ)).2 :=
  ⟨(c6_cube_mesh ⟨2, 4, 6⟩ (by norm_num) (by norm_num) (by norm_num)).1,
   (c6_cube_mesh ⟨2, 4, 6⟩ (by norm_num) (by norm_num) (by norm_num)).2.2.2.1⟩

/-!
## C7: the cylinder
-/

/-- A `for`-loop that appends a block per iteration is the `flatMap` of
its block function. -/
theorem foldl_append_blocks {β γ : Type} (f : γ → List β) :
    ∀ (l : List γ) (acc : List β),
      l.foldl (fun a i => a ++ f i) acc = acc ++ l.flatMap f := by
  intro l
  induction l with
  | nil => intro acc; simp
  | cons x xs ih => intro acc; simp [ih]

theorem cylinder_ring_eq {α : Type} [Field α] (ops : Ops α) (size : V3 α)
    (steps : Nat) :
    cylinder_ring ops size steps = (List.range steps).flatMap (fun i : Nat =>
      [⟨-(size.x / 2), size.y / 2 * ops.cos (2 * ops.pi * (i : α) / (steps : α)),
        size.z / 2 * ops.sin (2 * ops.pi * (i : α) / (steps : α))⟩,
       ⟨size.x / 2, size.y / 2 * ops.cos (2 * ops.pi * (i : α) / (steps : α)),
        size.z / 2 * ops.sin (2 * ops.pi * (i : α) / (steps : α))⟩]) := by
  show (List.range steps).foldl
    (fun (acc : List (V3 α)) (i : Nat) =>
      acc ++ ([⟨-(size.x / 2), size.y / 2 * ops.cos (2 * ops.pi * (i : α) / (steps : α)),
              size.z / 2 * ops.sin (2 * ops.pi * (i : α) / (steps : α))⟩,
              ⟨size.x / 2, size.y / 2 * ops.cos (2 * ops.pi * (i : α) / (steps : α)),
              size.z / 2 * ops.sin (2 * ops.pi * (i : α) / (steps : α))⟩] : List (V3 α)))
    [] = _
  rw [foldl_append_blocks (fun i : Nat =>
      ([⟨-(size.x / 2), size.y / 2 * ops.cos (2 * ops.pi * (i : α) / (steps : α)),
        size.z / 2 * ops.sin (2 * ops.pi * (i : α) / (steps : α))⟩,
       ⟨size.x / 2, size.y / 2 * ops.cos (2 * ops.pi * (i : α) / (steps : α)),
        size.z / 2 * ops.sin (2 * ops.pi * (i : α) / (steps : α))⟩] : List (V3 α)))]
  rw [List.nil_append]

theorem flatMap_pair_length {β γ : Type} (a b : γ → β) :
    ∀ l : List γ, (l.flatMap (fun x => [a x, b x])).length = 2 * l.length := by
  intro l
  induction l with
  | nil => rfl
  | cons x xs ih =>
    simp only [List.flatMap_cons, List.length_append, List.length_cons,
      List.length_nil, ih, List.length_cons]
    ring

theorem flatMap_pair_getElem? {β γ : Type} (a b : γ → β) :
    ∀ (l : List γ) (i : Nat) (h : i < l.length),
      (l.flatMap (fun x => [a x, b x]))[2 * i]? = some (a l[i]) ∧
      (l.flatMap (fun x => [a x, b x]))[2 * i + 1]? = some (b l[i]) := by
  intro l
  induction l with
  | nil => intro i hi; simp at hi
  | cons x xs ih =>
    intro i hi
    cases i with
    | zero => simp
    | succ i =>
      have hlt : i < xs.length := by simpa using Nat.lt_of_succ_lt_succ hi
      have hrec := ih i hlt
      have h2 : 2 * (i + 1) = (2 * i + 1) + 1 := by ring
      have h3 : 2 * (i + 1) + 1 = (2 * i + 1 + 1) + 1 := by ring
      constructor
      · rw [h2]
        simpa using hrec.1
      · rw [h3]
        simpa using hrec.2

/-- C7: for every size and `steps ≥ 1` (for any interpretation of
`cos`/`sin` satisfying the Pythagorean identity), `cylinder_mesh` produces
exactly `2*steps` ring vertices followed by the two cap-centre vertices at
`(∓size.x/2, 0, 0)`; ring vertex `2i` sits at `x = -size.x/2` and ring
vertex `2i+1` at `x = +size.x/2`, both on the ellipse with semi-axes
`size.y/2` and `size.z/2`; the face list is, for each of the `steps`
segments, exactly 2 side triangles plus 1 triangle per cap connecting to
that cap's centre vertex, the neighbouring segment index taken modulo
`steps`; and `Part` instances whose shape selector is the cylinder
(enum 2) use `steps = 24`. -/
theorem c7_cylinder_mesh {α : Type} [Field α] (ops : Ops α) (size : V3 α)
    (steps : Nat) (hs : 1 ≤ steps)
    (hcs : ∀ θ : α, ops.cos θ * ops.cos θ + ops.sin θ * ops.sin θ = 1) :
    (cylinder_mesh ops size steps).1.length = 2 * steps + 2 ∧
    (cylinder_mesh ops size steps).1.getD (2 * steps) ⟨0, 0, 0⟩ =
      ⟨-(size.x / 2), 0, 0⟩ ∧
    (cylinder_mesh ops size steps).1.getD (2 * steps + 1) ⟨0, 0, 0⟩ =
      ⟨size.x / 2, 0, 0⟩ ∧
    (∀ i, i < steps →
      (cylinder_mesh ops size steps).1.getD (2 * i) ⟨0, 0, 0⟩ =
        ⟨-(size.x / 2), size.y / 2 * ops.cos (2 * ops.pi * (i : α) / (steps : α)),
          size.z / 2 * ops.sin (2 * ops.pi * (i : α) / (steps : α))⟩ ∧
      (cylinder_mesh ops size steps).1.getD (2 * i + 1) ⟨0, 0, 0⟩ =
        ⟨size.x / 2, size.y / 2 * ops.cos (2 * ops.pi * (i : α) / (steps : α)),
          size.z / 2 * ops.sin (2 * ops.pi * (i : α) / (steps : α))⟩) ∧
    (∀ i, i < steps → ∀ j, (j = 2 * i ∨ j = 2 * i + 1) →
      ((cylinder_mesh ops size steps).1.getD j ⟨0, 0, 0⟩).y ^ 2 * (size.z / 2) ^ 2 +
        ((cylinder_mesh ops size steps).1.getD j ⟨0, 0, 0⟩).z ^ 2 * (size.y / 2) ^ 2 =
        (size.y / 2) ^ 2 * (size.z / 2) ^ 2) ∧
    (cylinder_mesh ops size steps).2 = (List.range steps).flatMap (fun i =>
      [(i * 2, (i + 1) % steps * 2, (i + 1) % steps * 2 + 1),
       (i * 2, (i + 1) % steps * 2 + 1, i * 2 + 1),
       (i * 2, (i + 1) % steps * 2, 2 * steps),
       (i * 2 + 1, (i + 1) % steps * 2 + 1, 2 * steps + 1)]) ∧
    (∀ (opsQ : Ops ℚ) (props : List (String × VariantT)) (sizeQ : V3 ℚ),
      getShape props = 2 →
      localMesh opsQ "Part" props sizeQ = cylinder_mesh opsQ sizeQ 24) := by
  have hringlen : (cylinder_ring ops size steps).length = 2 * steps := by
    rw [cylinder_ring_eq, flatMap_pair_length]
    simp
  have hvs : (cylinder_mesh ops size steps).1 =
      cylinder_ring ops size steps ++
        ([⟨-(size.x / 2), 0, 0⟩, ⟨size.x / 2, 0, 0⟩] : List (V3 α)) := rfl
  have hlen : (cylinder_mesh ops size steps).1.length = 2 * steps + 2 := by
    rw [hvs]
    simp [hringlen]
  have hcap1 : (cylinder_mesh ops size steps).1.getD (2 * steps) ⟨0, 0, 0⟩ =
      ⟨-(size.x / 2), 0, 0⟩ := by
    rw [hvs, List.getD_eq_getElem?_getD, List.getElem?_append, hringlen]
    simp
  have hcap2 : (cylinder_mesh ops size steps).1.getD (2 * steps + 1) ⟨0, 0, 0⟩ =
      ⟨size.x / 2, 0, 0⟩ := by
    rw [hvs, List.getD_eq_getElem?_getD, List.getElem?_append, hringlen]
    simp
  have hringv : ∀ i, i < steps →
      (cylinder_mesh ops size steps).1.getD (2 * i) ⟨0, 0, 0⟩ =
        ⟨-(size.x / 2), size.y / 2 * ops.cos (2 * ops.pi * (i : α) / (steps : α)),
          size.z / 2 * ops.sin (2 * ops.pi * (i : α) / (steps : α))⟩ ∧
      (cylinder_mesh ops size steps).1.getD (2 * i + 1) ⟨0, 0, 0⟩ =
        ⟨size.x / 2, size.y / 2 * ops.cos (2 * ops.pi * (i : α) / (steps : α)),
          size.z / 2 * ops.sin (2 * ops.pi * (i : α) / (steps : α))⟩ := by
    intro i hi
    have hilen : i < (List.range steps).length := by simpa using hi
    have hpair := flatMap_pair_getElem?
      (fun i : Nat => (⟨-(size.x / 2), size.y / 2 * ops.cos (2 * ops.pi * (i : α) / (steps : α)),
          size.z / 2 * ops.sin (2 * ops.pi * (i : α) / (steps : α))⟩ : V3 α))
      (fun i : Nat => (⟨size.x / 2, size.y / 2 * ops.cos (2 * ops.pi * (i : α) / (steps : α)),
          size.z / 2 * ops.sin (2 * ops.pi * (i : α) / (steps : α))⟩ : V3 α))
      (List.range steps) i hilen
    rw [List.getElem_range] at hpair
    have h1 : 2 * i < (cylinder_ring ops size steps).length := by omega
    have h2 : 2 * i + 1 < (cylinder_ring ops size steps).length := by omega
    constructor
    · rw [hvs, List.getD_eq_getElem?_getD, List.getElem?_append, if_pos h1,
        cylinder_ring_eq, hpair.1]
      rfl
    · rw [hvs, List.getD_eq_getElem?_getD, List.getElem?_append, if_pos h2,
        cylinder_ring_eq, hpair.2]
      rfl
  refine ⟨hlen, hcap1, hcap2, hringv, ?_, ?_, ?_⟩
  · intro i hi j hj
    have hv := hringv i hi
    have hpy := hcs (2 * ops.pi * (i : α) / (steps : α))
    rcases hj with h | h <;> subst h
    · rw [hv.1]
      show (size.y / 2 * ops.cos _) ^ 2 * (size.z / 2) ^ 2 +
        (size.z / 2 * ops.sin _) ^ 2 * (size.y / 2) ^ 2 = _
      linear_combination (size.y / 2) ^ 2 * (size.z / 2) ^ 2 * hpy
    · rw [hv.2]
      show (size.y / 2 * ops.cos _) ^ 2 * (size.z / 2) ^ 2 +
        (size.z / 2 * ops.sin _) ^ 2 * (size.y / 2) ^ 2 = _
      linear_combination (size.y / 2) ^ 2 * (size.z / 2) ^ 2 * hpy
  · show (List.range steps).foldl
      (fun (acc : List Tri) (i : Nat) =>
        acc ++ [(i * 2, (i + 1) % steps * 2, (i + 1) % steps * 2 + 1),
                (i * 2, (i + 1) % steps * 2 + 1, i * 2 + 1),
                (i * 2, (i + 1) % steps * 2,
                  (cylinder_ring ops size steps ++
                    ([⟨-(size.x / 2), 0, 0⟩, ⟨size.x / 2, 0, 0⟩] : List (V3 α))).length - 2),
                (i * 2 + 1, (i + 1) % steps * 2 + 1,
                  (cylinder_ring ops size steps ++
                    ([⟨-(size.x / 2), 0, 0⟩, ⟨size.x / 2, 0, 0⟩] : List (V3 α))).length - 1)])
      [] = _
    have hL : (cylinder_ring ops size steps ++
        ([⟨-(size.x / 2), 0, 0⟩, ⟨size.x / 2, 0, 0⟩] : List (V3 α))).length =
        2 * steps + 2 := by simp [hringlen]
    simp only [hL]
    have e2 : 2 * steps + 2 - 2 = 2 * steps := by omega
    have e1 : 2 * steps + 2 - 1 = 2 * steps + 1 := by omega
    simp only [e2, e1]
    rw [foldl_append_blocks (fun i : Nat =>
      ([(i * 2, (i + 1) % steps * 2, (i + 1) % steps * 2 + 1),
        (i * 2, (i + 1) % steps * 2 + 1, i * 2 + 1),
        (i * 2, (i + 1) % steps * 2, 2 * steps),
        (i * 2 + 1, (i + 1) % steps * 2 + 1, 2 * steps + 1)] : List Tri))]
    rw [List.nil_append]
  · intro opsQ props sizeQ hshape
    show (match getShape props with
      | 0 => sphere_mesh opsQ sizeQ 2 0
      | 1 => cube_mesh sizeQ
      | 2 => cylinder_mesh opsQ sizeQ 24
      | _ => cube_mesh sizeQ) = cylinder_mesh opsQ sizeQ 24
    rw [hshape]

/-- Witness for `c7_cylinder_mesh` over `ℚ` with `cos = 1`, `sin = 0`,
`steps = 1`, size `(2, 4, 6)`: counts and the cap-centre positions. -/
theorem c7_cylinder_mesh_witness :
    (cylinder_mesh (⟨fun _ => 1, fun _ => 1, fun _ => 0, 0⟩ : Ops ℚ)
        (⟨2, 4, 6⟩ : V3 ℚ) 1).1.length = 2 * 1 + 2 ∧
    (cylinder_mesh (⟨fun _ => 1, fun _ => 1, fun _ => 0, 0⟩ : Ops ℚ)
        (⟨2, 4, 6⟩ : V3 ℚ) 1).1.getD (2 * 1) ⟨0, 0, 0⟩ =
      ⟨-((2 : ℚ) / 2), 0, 0⟩ := by
  have h := c7_cylinder_mesh (⟨fun _ => 1, fun _ => 1, fun _ => 0, 0⟩ : Ops ℚ)
    (⟨2, 4, 6⟩ : V3 ℚ) 1 (by norm_num) (fun θ => by norm_num)
  exact ⟨h.1, h.2.1⟩

/-!
## C4: the geodesic sphere subdivision

Triangle and vertex counts of one subdivision pass, and unit length of the
pre-scaling vertices in the exact-arithmetic idealisation.
-/

/-- Number of distinct undirected edges of a face list. -/
def edgeCount (fs : List Tri) : Nat := (undirEdges fs).dedup.length

/-- The set of keys present in a midpoint cache. -/
def cacheKeys (cache : MidCache) : Finset (Nat × Nat) :=
  (cache.map Prod.fst).toFinset

theorem cacheFind_eq_none_iff (k : Nat × Nat) :
    ∀ cache : MidCache, cacheFind k cache = none ↔ k ∉ cacheKeys cache := by
  intro cache
  induction cache with
  | nil => simp [cacheFind, cacheKeys]
  | cons p rest ih =>
    unfold cacheFind
    by_cases h : p.1 = k
    · simp [h, cacheKeys]
    · simp only [if_neg h, ih, cacheKeys, List.map_cons, List.toFinset_cons,
        Finset.mem_insert]
      constructor
      · intro hk hor
        rcases hor with h' | h'
        · exact h h'.symm
        · exact hk (by simpa [cacheKeys] using h')
      · intro hk hk2
        exact hk (Or.inr (by simpa [cacheKeys] using hk2))

/-- The key computed inside `get_midpoint` is `ekey`. -/
theorem get_midpoint_key (a b : Nat) :
    (if a < b then (a, b) else (b, a)) = ekey a b := rfl

/-- Specification of one `get_midpoint` call: how the vertex count and the
key set of the cache evolve. -/
theorem get_midpoint_spec {α : Type} [Field α] (ops : Ops α) (a b : Nat)
    (vertices : List (V3 α)) (cache : MidCache) :
    (get_midpoint ops a b vertices cache).2.1.length =
      vertices.length + (if ekey a b ∈ cacheKeys cache then 0 else 1) ∧
    cacheKeys (get_midpoint ops a b vertices cache).2.2 =
      insert (ekey a b) (cacheKeys cache) := by
  unfold get_midpoint
  rw [get_midpoint_key]
  cases h : cacheFind (ekey a b) cache with
  | some idx =>
    have hk : ekey a b ∈ cacheKeys cache := by
      by_contra hk
      rw [← cacheFind_eq_none_iff] at hk
      rw [h] at hk
      exact Option.noConfusion hk
    simp [h, hk, Finset.insert_eq_self.mpr hk]
  | none =>
    have hk : ekey a b ∉ cacheKeys cache := (cacheFind_eq_none_iff _ _).mp h
    simp only [h, if_neg hk, List.length_append, List.length_cons, List.length_nil]
    refine ⟨by simp, ?_⟩
    unfold cacheKeys
    simp [Finset.insert_eq, Finset.union_comm]

/-- Cardinality of a union-difference, split at the first block. -/
theorem card_union_sdiff {A B C : Finset (Nat × Nat)} :
    ((A ∪ B) \ C).card = (A \ C).card + (B \ (C ∪ A)).card := by
  have hset : (A ∪ B) \ C = (A \ C) ∪ (B \ (C ∪ A)) := by
    ext e
    simp only [Finset.mem_sdiff, Finset.mem_union]
    tauto
  have hdisj : Disjoint (A \ C) (B \ (C ∪ A)) := by
    rw [Finset.disjoint_left]
    intro e he1 he2
    simp only [Finset.mem_sdiff, Finset.mem_union] at he1 he2
    tauto
  rw [hset, Finset.card_union_of_disjoint hdisj]

theorem card_singleton_sdiff (e : Nat × Nat) (K : Finset (Nat × Nat)) :
    (({e} : Finset (Nat × Nat)) \ K).card = if e ∈ K then 0 else 1 := by
  by_cases h : e ∈ K
  · simp [h, Finset.sdiff_eq_empty_iff_subset.mpr (Finset.singleton_subset_iff.mpr h)]
  · rw [Finset.sdiff_eq_self_of_disjoint (by simpa using h)]
    simp [h]

/-- Vertex growth of the subdivision walk: the new vertices are exactly
one per undirected edge not yet in the cache. -/
theorem subAux_length {α : Type} [Field α] (ops : Ops α) :
    ∀ (fs : List Tri) (vertices : List (V3 α)) (cache : MidCache)
      (newFaces : List Tri),
      (subAux ops fs vertices cache newFaces).1.length =
        vertices.length +
          ((undirEdges fs).toFinset \ cacheKeys cache).card := by
  intro fs
  induction fs with
  | nil => intro vertices cache newFaces; simp [subAux, undirEdges]
  | cons f fs ih =>
    intro vertices cache newFaces
    obtain ⟨a, b, c⟩ := f
    show (subAux ops ((a, b, c) :: fs) vertices cache newFaces).1.length = _
    have h1 := get_midpoint_spec ops a b vertices cache
    set r1 := get_midpoint ops a b vertices cache with hr1
    have h2 := get_midpoint_spec ops b c r1.2.1 r1.2.2
    set r2 := get_midpoint ops b c r1.2.1 r1.2.2 with hr2
    have h3 := get_midpoint_spec ops c a r2.2.1 r2.2.2
    set r3 := get_midpoint ops c a r2.2.1 r2.2.2 with hr3
    have hstep : (subAux ops ((a, b, c) :: fs) vertices cache newFaces) =
        subAux ops fs r3.2.1 r3.2.2
          (newFaces ++ [(a, r1.1, r3.1), (b, r2.1, r1.1), (c, r3.1, r2.1),
            (r1.1, r2.1, r3.1)]) := rfl
    rw [hstep, ih]
    rw [h3.1, h2.1, h1.1, h3.2, h2.2, h1.2]
    have hedges : (undirEdges ((a, b, c) :: fs)).toFinset =
        ({ekey a b} ∪ ({ekey b c} ∪ {ekey c a})) ∪ (undirEdges fs).toFinset := by
      show ([ekey a b, ekey b c, ekey c a] ++ undirEdges fs).toFinset = _
      simp [Finset.insert_eq, Finset.union_assoc]
    rw [hedges]
    rw [card_union_sdiff]
    rw [card_union_sdiff]
    rw [card_union_sdiff]
    rw [card_singleton_sdiff, card_singleton_sdiff, card_singleton_sdiff]
    have e1 : cacheKeys cache ∪ {ekey a b} = insert (ekey a b) (cacheKeys cache) := by
      ext e
      simp only [Finset.mem_union, Finset.mem_insert, Finset.mem_singleton]
      tauto
    have e2 : insert (ekey a b) (cacheKeys cache) ∪ {ekey b c} =
        insert (ekey b c) (insert (ekey a b) (cacheKeys cache)) := by
      ext e
      simp only [Finset.mem_union, Finset.mem_insert, Finset.mem_singleton]
      tauto
    have e3 : cacheKeys cache ∪ ({ekey a b} ∪ ({ekey b c} ∪ {ekey c a})) =
        insert (ekey c a) (insert (ekey b c) (insert (ekey a b) (cacheKeys cache))) := by
      ext e
      simp only [Finset.mem_union, Finset.mem_insert, Finset.mem_singleton]
      tauto
    rw [e1, e2, e3]
    omega

/-- Each processed face contributes exactly 4 subdivided faces. -/
theorem subAux_faces_length {α : Type} [Field α] (ops : Ops α) :
    ∀ (fs : List Tri) (vertices : List (V3 α)) (cache : MidCache)
      (newFaces : List Tri),
      (subAux ops fs vertices cache newFaces).2.length =
        newFaces.length + 4 * fs.length := by
  intro fs
  induction fs with
  | nil => intro vertices cache newFaces; simp [subAux]
  | cons f fs ih =>
    intro vertices cache newFaces
    obtain ⟨a, b, c⟩ := f
    set r1 := get_midpoint ops a b vertices cache with hr1
    set r2 := get_midpoint ops b c r1.2.1 r1.2.2 with hr2
    set r3 := get_midpoint ops c a r2.2.1 r2.2.2 with hr3
    have hstep : (subAux ops ((a, b, c) :: fs) vertices cache newFaces) =
        subAux ops fs r3.2.1 r3.2.2
          (newFaces ++ [(a, r1.1, r3.1), (b, r2.1, r1.1), (c, r3.1, r2.1),
            (r1.1, r2.1, r3.1)]) := rfl
    rw [hstep, ih]
    simp [List.length_append]
    ring

/-- Triangle counts across levels: `20 * 4^n`. -/
theorem sphereLevel_faces_length {α : Type} [Field α] (ops : Ops α) :
    ∀ n : Nat, (sphereLevel ops n).2.length = 20 * 4 ^ n := by
  intro n
  induction n with
  | zero => rfl
  | succ n ih =>
    show (subdivideStep ops (sphereLevel ops n)).2.length = _
    unfold subdivideStep
    rw [subAux_faces_length, ih]
    simp
    ring

/-- A nonempty face list has at least one undirected edge. -/
theorem edgeCount_pos (fs : List Tri) (h : fs ≠ []) : 0 < edgeCount fs := by
  obtain ⟨f, fs', rfl⟩ := List.exists_cons_of_ne_nil h
  unfold edgeCount
  have hmem : ekey f.1 f.2.1 ∈ undirEdges (f :: fs') := by
    unfold undirEdges
    simp [List.flatMap_cons]
  have : ekey f.1 f.2.1 ∈ (undirEdges (f :: fs')).dedup := List.mem_dedup.mpr hmem
  exact List.length_pos_of_mem this

/-- Squared Euclidean length. -/
def nsq {β : Type} [Field β] (v : V3 β) : β := v.x * v.x + v.y * v.y + v.z * v.z

/-- Over `ℝ`, with a square root satisfying its defining equation on
nonnegatives, normalisation yields a unit vector — or the zero vector when
the input is zero (0/0 = 0 in the real field). -/
theorem normalizeV_unit (ops : Ops ℝ)
    (hsqrt : ∀ x : ℝ, 0 ≤ x → ops.sqrt x * ops.sqrt x = x) (v : V3 ℝ) :
    nsq (normalizeV ops v) = 1 ∨ normalizeV ops v = ⟨0, 0, 0⟩ := by
  by_cases h0 : nsq v = 0
  · right
    have hx : v.x = 0 ∧ v.y = 0 ∧ v.z = 0 := by
      unfold nsq at h0
      refine ⟨?_, ?_, ?_⟩ <;> nlinarith [sq_nonneg v.x, sq_nonneg v.y, sq_nonneg v.z]
    unfold normalizeV
    rw [hx.1, hx.2.1, hx.2.2]
    simp
  · left
    have hpos : 0 ≤ nsq v := by
      unfold nsq
      nlinarith [sq_nonneg v.x, sq_nonneg v.y, sq_nonneg v.z]
    have hlen2 : ops.sqrt (v.x * v.x + v.y * v.y + v.z * v.z) *
        ops.sqrt (v.x * v.x + v.y * v.y + v.z * v.z) =
        v.x * v.x + v.y * v.y + v.z * v.z := hsqrt _ (by
      unfold nsq at hpos
      exact hpos)
    have hne : ops.sqrt (v.x * v.x + v.y * v.y + v.z * v.z) ≠ 0 := by
      intro hz
      rw [hz, mul_zero] at hlen2
      exact h0 (by unfold nsq; exact hlen2.symm)
    show (v.x / _) * (v.x / _) + (v.y / _) * (v.y / _) + (v.z / _) * (v.z / _) = 1
    field_simp
    rw [hlen2]

/-- Every vertex produced by the subdivision walk is either kept from the
input list or is a normalised midpoint. -/
theorem subAux_verts_good (ops : Ops ℝ)
    (hsqrt : ∀ x : ℝ, 0 ≤ x → ops.sqrt x * ops.sqrt x = x) :
    ∀ (fs : List Tri) (vertices : List (V3 ℝ)) (cache : MidCache)
      (newFaces : List Tri),
      (∀ v ∈ vertices, nsq v = 1 ∨ v = ⟨0, 0, 0⟩) →
      ∀ v ∈ (subAux ops fs vertices cache newFaces).1,
        nsq v = 1 ∨ v = ⟨0, 0, 0⟩ := by
  have hgm : ∀ (a b : Nat) (vertices : List (V3 ℝ)) (cache : MidCache),
      (∀ v ∈ vertices, nsq v = 1 ∨ v = ⟨0, 0, 0⟩) →
      ∀ v ∈ (get_midpoint ops a b vertices cache).2.1,
        nsq v = 1 ∨ v = ⟨0, 0, 0⟩ := by
    intro a b vertices cache hv v hmem
    cases h : cacheFind (ekey a b) cache with
    | some idx =>
      simp only [get_midpoint, get_midpoint_key, h] at hmem
      exact hv v hmem
    | none =>
      simp only [get_midpoint, get_midpoint_key, h, List.mem_append,
        List.mem_singleton] at hmem
      rcases hmem with hmem | hmem
      · exact hv v hmem
      · subst hmem
        exact normalizeV_unit ops hsqrt _
  intro fs
  induction fs with
  | nil => intro vertices cache newFaces hv; exact hv
  | cons f fs ih =>
    intro vertices cache newFaces hv
    obtain ⟨a, b, c⟩ := f
    set r1 := get_midpoint ops a b vertices cache with hr1
    set r2 := get_midpoint ops b c r1.2.1 r1.2.2 with hr2
    set r3 := get_midpoint ops c a r2.2.1 r2.2.2 with hr3
    have hstep : (subAux ops ((a, b, c) :: fs) vertices cache newFaces) =
        subAux ops fs r3.2.1 r3.2.2
          (newFaces ++ [(a, r1.1, r3.1), (b, r2.1, r1.1), (c, r3.1, r2.1),
            (r1.1, r2.1, r3.1)]) := rfl
    rw [hstep]
    apply ih
    intro v hv3
    exact hgm c a r2.2.1 r2.2.2
      (fun w hw => hgm b c r1.2.1 r1.2.2
        (fun u hu => hgm a b vertices cache hv u hu) w hw) v hv3

/-- C4 counterexample: at level 0 (with the combinatorics-only `ℚ`
interpretation of the `f32` operations, on which the counts do not
depend), subdividing the 12-vertex icosahedron adds exactly its 30
undirected edges' worth of vertices (12 → 42), not `2 + 30`. -/
theorem c4_vertex_growth_not_two_plus_edges :
    ¬ ((sphereLevel unitOps 1).1.length =
        (sphereLevel unitOps 0).1.length +
          (2 + edgeCount (sphereLevel unitOps 0).2)) := by
  decide

/-- C4 amended: for every interpretation of the `f32` operations and every
`n ≥ 0`, one subdivision step multiplies the triangle count by exactly 4
and strictly increases the vertex count by exactly the number of
undirected edges of the level-`n` mesh (not `2 +` that number); and over
`ℝ`, with any square root satisfying its defining equation on
nonnegatives, every pre-scaling vertex has squared Euclidean length
exactly 1 unless it is the zero vector (which could only arise from a
degenerate zero edge-midpoint). -/
theorem c4_sphere_subdivision :
    (∀ (α : Type) [Field α] (ops : Ops α) (n : Nat),
      (sphereLevel ops (n + 1)).2.length = 4 * (sphereLevel ops n).2.length ∧
      (sphereLevel ops (n + 1)).1.length =
        (sphereLevel ops n).1.length + edgeCount (sphereLevel ops n).2 ∧
      0 < edgeCount (sphereLevel ops n).2) ∧
    (∀ ops : Ops ℝ, (∀ x : ℝ, 0 ≤ x → ops.sqrt x * ops.sqrt x = x) →
      ∀ (n : Nat), ∀ v ∈ (sphereLevel ops n).1,
        nsq v = 1 ∨ v = ⟨0, 0, 0⟩) := by
  constructor
  · intro α fI ops n
    refine ⟨?_, ?_, ?_⟩
    · show (subdivideStep ops (sphereLevel ops n)).2.length = _
      unfold subdivideStep
      rw [subAux_faces_length]
      simp
    · show (subdivideStep ops (sphereLevel ops n)).1.length = _
      unfold subdivideStep
      rw [subAux_length]
      have hempty : cacheKeys [] = (∅ : Finset (Nat × Nat)) := rfl
      rw [hempty, Finset.sdiff_empty, List.card_toFinset]
      rfl
    · apply edgeCount_pos
      intro hnil
      have := sphereLevel_faces_length ops n
      rw [hnil] at this
      simp at this
  · intro ops hsqrt n
    induction n with
    | zero =>
      intro v hv
      show nsq v = 1 ∨ v = ⟨0, 0, 0⟩
      have : v ∈ (icoRawVerts ops).map (normalizeV ops) := hv
      obtain ⟨w, _, rfl⟩ := List.mem_map.mp this
      exact normalizeV_unit ops hsqrt w
    | succ n ih =>
      intro v hv
      show nsq v = 1 ∨ v = ⟨0, 0, 0⟩
      have : v ∈ (subdivideStep ops (sphereLevel ops n)).1 := hv
      unfold subdivideStep at this
      exact subAux_verts_good ops hsqrt _ _ _ _ ih v this

/-- Witness for `c4_sphere_subdivision`: instantiated with the real square
root (hypothesis discharged by `Real.mul_self_sqrt`), every level-0 vertex
is unit or zero; and the level-0 counts under a concrete `ℚ`
interpretation. -/
theorem c4_sphere_subdivision_witness :
    (∀ v ∈ (sphereLevel (⟨Real.sqrt, fun _ => 0, fun _ => 0, 0⟩ : Ops ℝ) 0).1,
      nsq v = 1 ∨ v = ⟨0, 0, 0⟩) ∧
    (sphereLevel unitOps 1).2.length = 4 * (sphereLevel unitOps 0).2.length :=
  ⟨c4_sphere_subdivision.2 ⟨Real.sqrt, fun _ => 0, fun _ => 0, 0⟩
    (fun x hx => Real.mul_self_sqrt hx) 0,
   (c4_sphere_subdivision.1 ℚ unitOps 0).1⟩

/-!
## C1: the global buffer invariant

Every face line carries 1-based indices between 1 and the number of vertex
lines already written at the moment the face line is written, and the
running `vertex_offset` always equals the number of vertex lines written.
-/

/-- All three indices of a triangle are below `nv`. -/
def faceLt (nv : Nat) (f : Tri) : Prop := f.1 < nv ∧ f.2.1 < nv ∧ f.2.2 < nv

instance (nv : Nat) (f : Tri) : Decidable (faceLt nv f) := by
  unfold faceLt
  infer_instance

theorem cube_mesh_bound {α : Type} [Field α] (size : V3 α) :
    ∀ f ∈ (cube_mesh size).2, faceLt (cube_mesh size).1.length f := by
  have h2 : (cube_mesh size).2 = [(0, 1, 2), (0, 2, 3), (4, 5, 6), (4, 6, 7),
    (0, 1, 5), (0, 5, 4), (1, 2, 6), (1, 6, 5),
    (2, 3, 7), (2, 7, 6), (3, 0, 4), (3, 4, 7)] := rfl
  have h1 : (cube_mesh size).1.length = 8 := rfl
  rw [h2, h1]
  decide

theorem wedge_mesh_bound {α : Type} [Field α] (size : V3 α) :
    ∀ f ∈ (wedge_mesh size).2, faceLt (wedge_mesh size).1.length f := by
  have h2 : (wedge_mesh size).2 = [(0, 1, 2), (0, 2, 3), (0, 1, 4), (1, 5, 4),
    (3, 2, 5), (3, 5, 4), (0, 3, 4), (1, 2, 5)] := rfl
  have h1 : (wedge_mesh size).1.length = 6 := rfl
  rw [h2, h1]
  decide

theorem cylinder_mesh_bound {α : Type} [Field α] (ops : Ops α) (size : V3 α)
    (steps : Nat) :
    ∀ f ∈ (cylinder_mesh ops size steps).2,
      faceLt (cylinder_mesh ops size steps).1.length f := by
  intro f hf
  have hringlen : (cylinder_ring ops size steps).length = 2 * steps := by
    rw [cylinder_ring_eq, flatMap_pair_length]
    simp
  have hlen : (cylinder_mesh ops size steps).1.length = 2 * steps + 2 := by
    show (cylinder_ring ops size steps ++
      ([⟨-(size.x / 2), 0, 0⟩, ⟨size.x / 2, 0, 0⟩] : List (V3 α))).length = _
    simp [hringlen]
  rw [hlen]
  have hfaces : (cylinder_mesh ops size steps).2 = (List.range steps).foldl
      (fun (acc : List Tri) (i : Nat) =>
        acc ++ [(i * 2, (i + 1) % steps * 2, (i + 1) % steps * 2 + 1),
                (i * 2, (i + 1) % steps * 2 + 1, i * 2 + 1),
                (i * 2, (i + 1) % steps * 2, 2 * steps),
                (i * 2 + 1, (i + 1) % steps * 2 + 1, 2 * steps + 1)])
      [] := by
    show (List.range steps).foldl
      (fun (acc : List Tri) (i : Nat) =>
        acc ++ [(i * 2, (i + 1) % steps * 2, (i + 1) % steps * 2 + 1),
                (i * 2, (i + 1) % steps * 2 + 1, i * 2 + 1),
                (i * 2, (i + 1) % steps * 2,
                  (cylinder_ring ops size steps ++
                    ([⟨-(size.x / 2), 0, 0⟩, ⟨size.x / 2, 0, 0⟩] : List (V3 α))).length - 2),
                (i * 2 + 1, (i + 1) % steps * 2 + 1,
                  (cylinder_ring ops size steps ++
                    ([⟨-(size.x / 2), 0, 0⟩, ⟨size.x / 2, 0, 0⟩] : List (V3 α))).length - 1)])
      [] = _
    have hL : (cylinder_ring ops size steps ++
        ([⟨-(size.x / 2), 0, 0⟩, ⟨size.x / 2, 0, 0⟩] : List (V3 α))).length =
        2 * steps + 2 := by simp [hringlen]
    simp only [hL]
    have e2 : 2 * steps + 2 - 2 = 2 * steps := by omega
    have e1 : 2 * steps + 2 - 1 = 2 * steps + 1 := by omega
    simp only [e2, e1]
  rw [hfaces] at hf
  rw [foldl_append_blocks (fun i : Nat =>
    ([(i * 2, (i + 1) % steps * 2, (i + 1) % steps * 2 + 1),
      (i * 2, (i + 1) % steps * 2 + 1, i * 2 + 1),
      (i * 2, (i + 1) % steps * 2, 2 * steps),
      (i * 2 + 1, (i + 1) % steps * 2 + 1, 2 * steps + 1)] : List Tri)),
    List.nil_append] at hf
  rw [List.mem_flatMap] at hf
  obtain ⟨i, hi, hfm⟩ := hf
  rw [List.mem_range] at hi
  have hnext : (i + 1) % steps < steps := Nat.mod_lt _ (by omega)
  simp only [List.mem_cons, List.not_mem_nil, or_false] at hfm
  rcases hfm with h | h | h | h <;> subst h <;>
    exact ⟨by simp only [faceLt]; omega, by simp only [faceLt]; omega,
      by simp only [faceLt]; omega⟩

theorem cacheFind_mem (k : Nat × Nat) :
    ∀ (cache : MidCache) (idx : Nat),
      cacheFind k cache = some idx → (k, idx) ∈ cache := by
  intro cache
  induction cache with
  | nil => intro idx h; exact Option.noConfusion h
  | cons p rest ih =>
    intro idx h
    unfold cacheFind at h
    by_cases hk : p.1 = k
    · rw [if_pos hk] at h
      obtain ⟨p1, p2⟩ := p
      simp only at hk
      subst hk
      cases h
      exact List.mem_cons_self _ _
    · rw [if_neg hk] at h
      exact List.mem_cons_of_mem _ (ih idx h)

/-- Bounds evolution of one `get_midpoint` call: the returned index is
below the new vertex count, the vertex list only grows, and cached indices
stay below the vertex count. -/
theorem get_midpoint_bound {α : Type} [Field α] (ops : Ops α) (a b : Nat)
    (vertices : List (V3 α)) (cache : MidCache)
    (hc : ∀ p ∈ cache, p.2 < vertices.length) :
    (get_midpoint ops a b vertices cache).1 <
      (get_midpoint ops a b vertices cache).2.1.length ∧
    vertices.length ≤ (get_midpoint ops a b vertices cache).2.1.length ∧
    (∀ p ∈ (get_midpoint ops a b vertices cache).2.2,
      p.2 < (get_midpoint ops a b vertices cache).2.1.length) := by
  cases h : cacheFind (ekey a b) cache with
  | some idx =>
    have hred : get_midpoint ops a b vertices cache = (idx, vertices, cache) := by
      simp only [get_midpoint, get_midpoint_key, h]
    rw [hred]
    exact ⟨hc _ (cacheFind_mem _ _ _ h), le_refl _, hc⟩
  | none =>
    have hred : (get_midpoint ops a b vertices cache).1 = vertices.length ∧
        (get_midpoint ops a b vertices cache).2.1.length = vertices.length + 1 ∧
        (get_midpoint ops a b vertices cache).2.2 =
          cache ++ [(ekey a b, vertices.length)] := by
      simp only [get_midpoint, get_midpoint_key, h]
      simp
    obtain ⟨h1, h2, h3⟩ := hred
    rw [h1, h2, h3]
    refine ⟨by omega, by omega, ?_⟩
    intro p hp
    rw [List.mem_append, List.mem_singleton] at hp
    rcases hp with hp | hp
    · exact Nat.lt_succ_of_lt (hc p hp)
    · subst hp
      exact Nat.lt_succ_self _

theorem faceLt_mono {nv nv' : Nat} (h : nv ≤ nv') (f : Tri)
    (hf : faceLt nv f) : faceLt nv' f := by
  unfold faceLt at hf ⊢
  omega

/-- The subdivision walk keeps every face index (old and new) below the
final vertex count. -/
theorem subAux_bound {α : Type} [Field α] (ops : Ops α) :
    ∀ (fs : List Tri) (vertices : List (V3 α)) (cache : MidCache)
      (newFaces : List Tri),
      (∀ f ∈ fs, faceLt vertices.length f) →
      (∀ p ∈ cache, p.2 < vertices.length) →
      (∀ f ∈ newFaces, faceLt vertices.length f) →
      (∀ f ∈ (subAux ops fs vertices cache newFaces).2,
        faceLt (subAux ops fs vertices cache newFaces).1.length f) ∧
      vertices.length ≤ (subAux ops fs vertices cache newFaces).1.length := by
  intro fs
  induction fs with
  | nil =>
    intro vertices cache newFaces _ _ hnf
    exact ⟨hnf, le_refl _⟩
  | cons f fs ih =>
    intro vertices cache newFaces hfs hc hnf
    obtain ⟨a, b, c⟩ := f
    set r1 := get_midpoint ops a b vertices cache with hr1
    set r2 := get_midpoint ops b c r1.2.1 r1.2.2 with hr2
    set r3 := get_midpoint ops c a r2.2.1 r2.2.2 with hr3
    have hstep : (subAux ops ((a, b, c) :: fs) vertices cache newFaces) =
        subAux ops fs r3.2.1 r3.2.2
          (newFaces ++ [(a, r1.1, r3.1), (b, r2.1, r1.1), (c, r3.1, r2.1),
            (r1.1, r2.1, r3.1)]) := rfl
    have hb1 := get_midpoint_bound ops a b vertices cache hc
    rw [← hr1] at hb1
    have hb2 := get_midpoint_bound ops b c r1.2.1 r1.2.2 hb1.2.2
    rw [← hr2] at hb2
    have hb3 := get_midpoint_bound ops c a r2.2.1 r2.2.2 hb2.2.2
    rw [← hr3] at hb3
    have hmono13 : vertices.length ≤ r3.2.1.length := by
      calc vertices.length ≤ r1.2.1.length := hb1.2.1
        _ ≤ r2.2.1.length := hb2.2.1
        _ ≤ r3.2.1.length := hb3.2.1
    have hhead := hfs (a, b, c) (List.mem_cons_self _ _)
    simp only [faceLt] at hhead
    have habc : a < r3.2.1.length ∧ b < r3.2.1.length ∧ c < r3.2.1.length := by
      obtain ⟨h1, h2, h3⟩ := hhead
      exact ⟨by omega, by omega, by omega⟩
    have hmid : r1.1 < r3.2.1.length ∧ r2.1 < r3.2.1.length ∧
        r3.1 < r3.2.1.length := by
      have hm1 : r1.1 < r1.2.1.length := hb1.1
      have hm2 : r2.1 < r2.2.1.length := hb2.1
      have hm3 : r3.1 < r3.2.1.length := hb3.1
      have := hb2.2.1
      have := hb3.2.1
      exact ⟨by omega, by omega, hm3⟩
    rw [hstep]
    have hfs2 : ∀ g ∈ fs, faceLt r3.2.1.length g := fun g hg =>
      faceLt_mono hmono13 g (hfs g (List.mem_cons_of_mem _ hg))
    have hnf2 : ∀ g ∈ newFaces ++ [(a, r1.1, r3.1), (b, r2.1, r1.1),
        (c, r3.1, r2.1), (r1.1, r2.1, r3.1)], faceLt r3.2.1.length g := by
      intro g hg
      rw [List.mem_append] at hg
      rcases hg with hg | hg
      · exact faceLt_mono hmono13 g (hnf g hg)
      · simp only [List.mem_cons, List.not_mem_nil, or_false] at hg
        rcases hg with h | h | h | h <;> subst h
        · exact ⟨habc.1, hmid.1, hmid.2.2⟩
        · exact ⟨habc.2.1, hmid.2.1, hmid.1⟩
        · exact ⟨habc.2.2, hmid.2.2, hmid.2.1⟩
        · exact ⟨hmid.1, hmid.2.1, hmid.2.2⟩
    have hrec := ih r3.2.1 r3.2.2 _ hfs2 hb3.2.2 hnf2
    exact ⟨hrec.1, le_trans hmono13 hrec.2⟩

/-- Index bounds for the sphere builder at every level. -/
theorem sphereLevel_bound {α : Type} [Field α] (ops : Ops α) :
    ∀ n : Nat, ∀ f ∈ (sphereLevel ops n).2,
      faceLt (sphereLevel ops n).1.length f := by
  intro n
  induction n with
  | zero =>
    have h1 : (sphereLevel ops 0).1.length = 12 := rfl
    have h2 : (sphereLevel ops 0).2 = icoFaces := rfl
    rw [h1, h2]
    decide
  | succ n ih =>
    show ∀ f ∈ (subdivideStep ops (sphereLevel ops n)).2, _
    unfold subdivideStep
    intro f hf
    exact (subAux_bound ops _ _ _ _ ih (by simp) (by simp)).1 f hf

theorem sphere_mesh_bound {α : Type} [Field α] (ops : Ops α) (size : V3 α)
    (subdivisions _unused : Nat) :
    ∀ f ∈ (sphere_mesh ops size subdivisions _unused).2,
      faceLt (sphere_mesh ops size subdivisions _unused).1.length f := by
  intro f hf
  have h1 : (sphere_mesh ops size subdivisions _unused).1.length =
      (sphereLevel ops subdivisions).1.length := by
    show ((sphereLevel ops subdivisions).1.map _).length = _
    rw [List.length_map]
  have h2 : (sphere_mesh ops size subdivisions _unused).2 =
      (sphereLevel ops subdivisions).2 := rfl
  rw [h1]
  rw [h2] at hf
  exact sphereLevel_bound ops subdivisions f hf

/-- Index bounds for whatever mesh the walker selects. -/
theorem localMesh_bound (ops : Ops ℚ) (klass : String)
    (props : List (String × VariantT)) (size : V3 ℚ) :
    ∀ f ∈ (localMesh ops klass props size).2,
      faceLt (localMesh ops klass props size).1.length f := by
  unfold localMesh
  split
  · split
    · exact sphere_mesh_bound ops size 2 0
    · exact cube_mesh_bound size
    · exact cylinder_mesh_bound ops size 24
    · exact cube_mesh_bound size
  · exact wedge_mesh_bound size
  · show ∀ f ∈ (wedge_mesh size).2, faceLt (wedge_mesh size).1.length f
    exact wedge_mesh_bound size
  · exact cube_mesh_bound size

/-- Number of `v` lines in a piece of OBJ output. -/
def vcount : List ObjLine → Nat
  | [] => 0
  | ObjLine.v _ :: rest => vcount rest + 1
  | _ :: rest => vcount rest

/-- Checks, walking the output in order with `n` vertex lines already
seen, that every face line's three 1-based indices lie in `[1, n']` where
`n'` counts the vertex lines written before that face line. -/
def facesOkB (n : Nat) : List ObjLine → Bool
  | [] => true
  | ObjLine.v _ :: rest => facesOkB (n + 1) rest
  | ObjLine.usemtl _ :: rest => facesOkB n rest
  | ObjLine.f i j k :: rest =>
    decide (1 ≤ i) && decide (i ≤ n) && decide (1 ≤ j) && decide (j ≤ n) &&
      decide (1 ≤ k) && decide (k ≤ n) && facesOkB n rest

theorem vcount_append (l1 l2 : List ObjLine) :
    vcount (l1 ++ l2) = vcount l1 + vcount l2 := by
  induction l1 with
  | nil => simp [vcount]
  | cons x rest ih =>
    cases x <;> simp [vcount, ih] <;> omega

theorem facesOkB_append (l1 l2 : List ObjLine) :
    ∀ n, facesOkB n (l1 ++ l2) =
      (facesOkB n l1 && facesOkB (n + vcount l1) l2) := by
  induction l1 with
  | nil => intro n; simp [facesOkB, vcount]
  | cons x rest ih =>
    intro n
    cases x with
    | v pos => simp [facesOkB, vcount, ih]; ring_nf
    | usemtl name => simp [facesOkB, vcount, ih]
    | f i j k =>
      simp [facesOkB, vcount, ih, Bool.and_assoc]

theorem vcount_vlines {β : Type} (g : β → V3 ℚ) (l : List β) :
    vcount (l.map (fun v => ObjLine.v (g v))) = l.length := by
  induction l with
  | nil => rfl
  | cons x rest ih => simp [vcount, ih]

theorem facesOkB_vlines {β : Type} (g : β → V3 ℚ) (l : List β) :
    ∀ n, facesOkB n (l.map (fun v => ObjLine.v (g v))) = true := by
  induction l with
  | nil => intro n; rfl
  | cons x rest ih => intro n; simp [facesOkB, ih]

theorem facesOkB_flines (off nv : Nat) (fs : List Tri)
    (hb : ∀ f ∈ fs, faceLt nv f) :
    facesOkB (off + nv) (fs.map (fun f =>
      ObjLine.f (f.1 + off + 1) (f.2.1 + off + 1) (f.2.2 + off + 1))) = true := by
  induction fs with
  | nil => rfl
  | cons f rest ih =>
    have hf := hb f (List.mem_cons_self _ _)
    have hrest := ih (fun g hg => hb g (List.mem_cons_of_mem _ hg))
    show (decide (1 ≤ f.1 + off + 1) && decide (f.1 + off + 1 ≤ off + nv) &&
      decide (1 ≤ f.2.1 + off + 1) && decide (f.2.1 + off + 1 ≤ off + nv) &&
      decide (1 ≤ f.2.2 + off + 1) && decide (f.2.2 + off + 1 ≤ off + nv) &&
      facesOkB (off + nv) (rest.map (fun f =>
        ObjLine.f (f.1 + off + 1) (f.2.1 + off + 1) (f.2.2 + off + 1)))) = true
    rw [hrest]
    simp only [Bool.and_true, Bool.and_eq_true, decide_eq_true_eq]
    obtain ⟨h1, h2, h3⟩ := hf
    omega

/-- The C1 state invariant: the vertex offset counts the vertex lines
written, and every face line written so far satisfies the 1-based index
bound at its own position in the stream. -/
def stOk (st : ExportState) : Prop :=
  st.vertex_offset = vcount st.obj ∧ facesOkB 0 st.obj = true

theorem emitPart_stOk (ops : Ops ℚ) (st : ExportState) (inst : Inst)
    (h : stOk st) : stOk (emitPart ops st inst) := by
  obtain ⟨hoff, hok⟩ := h
  have hm := localMesh_bound ops inst.klass inst.props (getSize inst.props)
  set m := localMesh ops inst.klass inst.props (getSize inst.props) with hmm
  constructor
  · show st.vertex_offset + m.1.length =
      vcount (st.obj ++ ObjLine.usemtl _ :: (_ ++ _))
    rw [vcount_append]
    show st.vertex_offset + m.1.length = vcount st.obj + vcount (_ ++ _)
    rw [vcount_append, vcount_vlines]
    have : vcount (m.2.map (fun f => ObjLine.f (f.1 + st.vertex_offset + 1)
        (f.2.1 + st.vertex_offset + 1) (f.2.2 + st.vertex_offset + 1))) = 0 := by
      induction m.2 with
      | nil => rfl
      | cons f rest ih => simpa [vcount] using ih
    rw [this, ← hmm]
    omega
  · show facesOkB 0 (st.obj ++ ObjLine.usemtl _ :: (_ ++ _)) = true
    rw [facesOkB_append]
    rw [hok]
    rw [Bool.true_and]
    show facesOkB (0 + vcount st.obj) (_ ++ _) = true
    rw [facesOkB_append, vcount_vlines, facesOkB_vlines, Bool.true_and]
    have harr : 0 + vcount st.obj + m.1.length = st.vertex_offset + m.1.length := by
      omega
    rw [harr]
    exact facesOkB_flines st.vertex_offset m.1.length m.2 hm

/-- Any state property preserved by `emitPart` is preserved by the whole
traversal (with the state carried through error paths unchanged). -/
theorem export_preserves (ops : Ops ℚ) (P : ExportState → Prop)
    (hP : ∀ st inst, P st → P (emitPart ops st inst)) :
    ∀ (fuel : Nat) (dom : Dom) (r : Nat) (st : ExportState),
      P st → P (export_instance ops fuel dom r st).1 := by
  intro fuel
  induction fuel with
  | zero => intro dom r st h; exact h
  | succ fuel ih =>
    intro dom r st h
    rw [export_instance_succ]
    cases hf : findInst dom r with
    | none => exact h
    | some inst =>
      have hst1 : P (if isPartClass inst.klass then emitPart ops st inst else st) := by
        by_cases hk : isPartClass inst.klass
        · rw [if_pos hk]; exact hP st inst h
        · rw [if_neg hk]; exact h
      show P (goChildren ops fuel dom inst.children _).1
      have hgo : ∀ (cs : List Nat) (a : ExportState × Option ExpErr),
          P a.1 → P (goChildren ops fuel dom cs a).1 := by
        intro cs
        induction cs with
        | nil => intro a ha; exact ha
        | cons c cs ihc =>
          intro a ha
          obtain ⟨s, e⟩ := a
          cases e with
          | some err =>
            show P (goChildren ops fuel dom cs (s, some err)).1
            exact ihc _ ha
          | none =>
            show P (goChildren ops fuel dom cs (export_instance ops fuel dom c s)).1
            exact ihc _ (ih dom c s ha)
      exact hgo inst.children _ hst1

/-- C1: for every DOM, every fuel and every interpretation of the `f32`
operations, after `main`'s full traversal every face line of the OBJ
stream carries 1-based indices between 1 and the number of vertex lines
emitted before it (`facesOkB`), and the final running `vertex_offset`
equals the total number of vertex lines emitted. -/
theorem c1_buffer_invariant (ops : Ops ℚ) (fuel : Nat) (dom : Dom) :
    facesOkB 0 (exportTop ops fuel dom).1.obj = true ∧
    (exportTop ops fuel dom).1.vertex_offset =
      vcount (exportTop ops fuel dom).1.obj := by
  have hinit : stOk initState := ⟨rfl, rfl⟩
  have hgo : ∀ (cs : List Nat) (a : ExportState × Option ExpErr),
      stOk a.1 → stOk (goChildren ops fuel dom cs a).1 := by
    intro cs
    induction cs with
    | nil => intro a ha; exact ha
    | cons c cs ihc =>
      intro a ha
      obtain ⟨s, e⟩ := a
      cases e with
      | some err =>
        show stOk (goChildren ops fuel dom cs (s, some err)).1
        exact ihc _ ha
      | none =>
        show stOk (goChildren ops fuel dom cs (export_instance ops fuel dom c s)).1
        exact ihc _ (export_preserves ops stOk (emitPart_stOk ops) fuel dom c s ha)
  have := hgo dom.rootChildren (initState, none) hinit
  exact ⟨this.2, this.1⟩

/-!
## C2: material deduplication

Supporting development: injectivity of the decimal rendering used by
`format!("mat_{}", id)`, and the evolution of the material map.
-/

theorem toDigitsCore_eq_digits :
    ∀ (f n : Nat) (acc : List Char), 0 < n → n ≤ f →
      Nat.toDigitsCore 10 f n acc =
        ((Nat.digits 10 n).map Nat.digitChar).reverse ++ acc := by
  intro f
  induction f with
  | zero => intro n acc hn hf; omega
  | succ f ih =>
    intro n acc hn hf
    show (if n / 10 = 0 then Nat.digitChar (n % 10) :: acc
      else Nat.toDigitsCore 10 f (n / 10) (Nat.digitChar (n % 10) :: acc)) = _
    have hd : Nat.digits 10 n = n % 10 :: Nat.digits 10 (n / 10) :=
      Nat.digits_def' (by norm_num) hn
    by_cases h : n / 10 = 0
    · rw [if_pos h, hd, h]
      simp
    · rw [if_neg h]
      have h1 : 0 < n / 10 := Nat.pos_of_ne_zero h
      have h2 : n / 10 ≤ f := by
        have := Nat.div_lt_self hn (by norm_num : 1 < 10)
        omega
      rw [ih (n / 10) (Nat.digitChar (n % 10) :: acc) h1 h2, hd]
      simp

theorem toDigits_eq_digits (n : Nat) (h : 0 < n) :
    Nat.toDigits 10 n = ((Nat.digits 10 n).map Nat.digitChar).reverse := by
  unfold Nat.toDigits
  rw [toDigitsCore_eq_digits (n + 1) n [] h (by omega)]
  simp

theorem digitChar_inj_lt (a b : Nat) (ha : a < 10) (hb : b < 10)
    (h : Nat.digitChar a = Nat.digitChar b) : a = b := by
  interval_cases a <;> interval_cases b <;> first | rfl | (exfalso; revert h; decide)

theorem map_digitChar_inj :
    ∀ (l1 l2 : List Nat), (∀ d ∈ l1, d < 10) → (∀ d ∈ l2, d < 10) →
      l1.map Nat.digitChar = l2.map Nat.digitChar → l1 = l2 := by
  intro l1
  induction l1 with
  | nil => intro l2 _ _ h; cases l2 <;> simp_all
  | cons d l1 ih =>
    intro l2 h1 h2 h
    cases l2 with
    | nil => simp_all
    | cons e l2 =>
      simp only [List.map_cons, List.cons.injEq] at h
      have hde : d = e := digitChar_inj_lt d e
        (h1 d (List.mem_cons_self _ _)) (h2 e (List.mem_cons_self _ _)) h.1
      have : l1 = l2 := ih l2 (fun x hx => h1 x (List.mem_cons_of_mem _ hx))
        (fun x hx => h2 x (List.mem_cons_of_mem _ hx)) h.2
      rw [hde, this]

theorem natToString_inj (m n : Nat) (h : toString m = toString n) : m = n := by
  have hrepr : Nat.repr m = Nat.repr n := h
  unfold Nat.repr at hrepr
  have hlist : Nat.toDigits 10 m = Nat.toDigits 10 n := by
    have := congrArg String.data hrepr
    simpa [List.asString] using this
  have hzero : Nat.toDigits 10 0 = ['0'] := rfl
  have key : ∀ p q : Nat, 0 < q → Nat.toDigits 10 p = Nat.toDigits 10 q → p ≠ 0 := by
    intro p q hq hpq hp0
    subst hp0
    rw [hzero, toDigits_eq_digits q hq] at hpq
    have hms : List.map Nat.digitChar (Nat.digits 10 q) = ['0'] := by
      have hrev := congrArg List.reverse hpq
      simp only [List.reverse_reverse] at hrev
      simpa using hrev.symm
    have hdq : Nat.digits 10 q = [0] :=
      map_digitChar_inj _ [0]
        (fun d hd => Nat.digits_lt_base (by norm_num) hd)
        (by intro d hd; simp at hd; omega)
        (by simpa using hms)
    have hofd := Nat.ofDigits_digits 10 q
    rw [hdq] at hofd
    simp [Nat.ofDigits] at hofd
    omega
  rcases Nat.eq_zero_or_pos m with hm | hm
  · rcases Nat.eq_zero_or_pos n with hn | hn
    · rw [hm, hn]
    · exact absurd hm (key m n hn hlist)
  · rcases Nat.eq_zero_or_pos n with hn | hn
    · exact absurd hn (key n m hm hlist.symm)
    · rw [toDigits_eq_digits m hm, toDigits_eq_digits n hn] at hlist
      have hrev := congrArg List.reverse hlist
      simp only [List.reverse_reverse] at hrev
      have hdig : Nat.digits 10 m = Nat.digits 10 n :=
        map_digitChar_inj _ _
          (fun d hd => Nat.digits_lt_base (by norm_num) hd)
          (fun d hd => Nat.digits_lt_base (by norm_num) hd) hrev
      calc m = Nat.ofDigits 10 (Nat.digits 10 m) := (Nat.ofDigits_digits 10 m).symm
        _ = Nat.ofDigits 10 (Nat.digits 10 n) := by rw [hdig]
        _ = n := Nat.ofDigits_digits 10 n

/-- Injectivity of the material-name rendering `mat_<id>`. -/
theorem matName_inj (m n : Nat)
    (h : "mat_" ++ toString m = "mat_" ++ toString n) : m = n := by
  apply natToString_inj
  have := congrArg String.data h
  simp only [String.data_append] at this
  have := List.append_cancel_left this
  cases hm : toString m with
  | mk dm =>
    cases hn : toString n with
    | mk dn =>
      rw [hm, hn] at this
      simp only at this
      rw [this]

theorem mlookup_eq_none_iff (k : Nat × Nat × Nat × Nat) :
    ∀ m : MatMap, mlookup k m = none ↔ k ∉ m.map Prod.fst := by
  intro m
  induction m with
  | nil => simp [mlookup]
  | cons p rest ih =>
    unfold mlookup
    by_cases h : p.1 = k
    · simp [h]
    · simp only [if_neg h, ih, List.map_cons, List.mem_cons]
      constructor
      · intro hk hor
        rcases hor with h' | h'
        · exact h h'.symm
        · exact hk h'
      · intro hk hk2
        exact hk (Or.inr hk2)

theorem mlookup_mem (k : Nat × Nat × Nat × Nat) :
    ∀ (m : MatMap) (n : String), mlookup k m = some n → (k, n) ∈ m := by
  intro m
  induction m with
  | nil => intro n h; exact Option.noConfusion h
  | cons p rest ih =>
    intro n h
    unfold mlookup at h
    by_cases hk : p.1 = k
    · rw [if_pos hk] at h
      obtain ⟨p1, p2⟩ := p
      simp only at hk
      subst hk
      cases h
      exact List.mem_cons_self _ _
    · rw [if_neg hk] at h
      exact List.mem_cons_of_mem _ (ih n h)

theorem mlookup_append_some (k : Nat × Nat × Nat × Nat) (n : String) :
    ∀ (m1 m2 : MatMap), mlookup k m1 = some n →
      mlookup k (m1 ++ m2) = some n := by
  intro m1 m2
  induction m1 with
  | nil => intro h; exact Option.noConfusion h
  | cons p rest ih =>
    obtain ⟨p1, p2⟩ := p
    intro h
    simp only [mlookup, List.cons_append] at h ⊢
    by_cases hk : p1 = k
    · rwa [if_pos hk] at h ⊢
    · rw [if_neg hk] at h ⊢
      exact ih h

theorem mlookup_append_none (k : Nat × Nat × Nat × Nat) :
    ∀ (m1 m2 : MatMap), mlookup k m1 = none →
      mlookup k (m1 ++ m2) = mlookup k m2 := by
  intro m1 m2
  induction m1 with
  | nil => intro _; rfl
  | cons p rest ih =>
    obtain ⟨p1, p2⟩ := p
    intro h
    simp only [mlookup, List.cons_append] at h ⊢
    by_cases hk : p1 = k
    · rw [if_pos hk] at h
      exact Option.noConfusion h
    · rw [if_neg hk] at h ⊢
      exact ih h

/-- The exact shape of the OBJ lines `emitPart` appends. -/
theorem emitPart_obj (ops : Ops ℚ) (st : ExportState) (inst : Inst) :
    (emitPart ops st inst).obj = st.obj ++
      ObjLine.usemtl (assignedName st (matKey inst)) ::
        ((localMesh ops inst.klass inst.props (getSize inst.props)).1.map
          (fun v => ObjLine.v (apply_cframe v (getCFrame inst.props))) ++
         (localMesh ops inst.klass inst.props (getSize inst.props)).2.map
          (fun f => ObjLine.f (f.1 + st.vertex_offset + 1)
            (f.2.1 + st.vertex_offset + 1) (f.2.2 + st.vertex_offset + 1))) := rfl

/-- `emitPart` on a material-map hit: material state untouched. -/
theorem emitPart_mat_hit (ops : Ops ℚ) (st : ExportState) (inst : Inst)
    (n : String) (h : mlookup (matKey inst) st.material_map = some n) :
    (emitPart ops st inst).material_map = st.material_map ∧
    (emitPart ops st inst).mtl = st.mtl ∧
    (emitPart ops st inst).next_mat_id = st.next_mat_id ∧
    assignedName st (matKey inst) = n := by
  refine ⟨?_, ?_, ?_, ?_⟩ <;> simp [emitPart, assignedName, h]

/-- `emitPart` on a material-map miss: the fresh sequential name is
appended to the map, its definition block is appended to the MTL output,
and the id counter advances. -/
theorem emitPart_mat_miss (ops : Ops ℚ) (st : ExportState) (inst : Inst)
    (h : mlookup (matKey inst) st.material_map = none) :
    (emitPart ops st inst).material_map = st.material_map ++
      [(matKey inst, "mat_" ++ toString st.next_mat_id)] ∧
    (emitPart ops st inst).mtl = st.mtl ++
      [matDefOf (matKey inst) ("mat_" ++ toString st.next_mat_id)] ∧
    (emitPart ops st inst).next_mat_id = st.next_mat_id + 1 ∧
    assignedName st (matKey inst) = "mat_" ++ toString st.next_mat_id := by
  refine ⟨?_, ?_, ?_, ?_⟩ <;> simp [emitPart, assignedName, h]

/-- The material-table invariant: names are `mat_0 … mat_(next-1)` in
insertion (first-seen) order, keys are distinct, and the MTL output is
exactly one definition block per map entry, in the same order. -/
def MInv (st : ExportState) : Prop :=
  st.material_map.map Prod.snd =
    (List.range st.next_mat_id).map (fun i => "mat_" ++ toString i) ∧
  (st.material_map.map Prod.fst).Nodup ∧
  st.mtl = st.material_map.map (fun p => matDefOf p.1 p.2)

theorem emitPart_MInv (ops : Ops ℚ) (st : ExportState) (inst : Inst)
    (h : MInv st) : MInv (emitPart ops st inst) := by
  obtain ⟨hs, hk, hm⟩ := h
  cases hhit : mlookup (matKey inst) st.material_map with
  | some n =>
    have e := emitPart_mat_hit ops st inst n hhit
    exact ⟨by rw [e.1, e.2.2.1]; exact hs,
      by rw [e.1]; exact hk,
      by rw [e.1, e.2.1]; exact hm⟩
  | none =>
    have e := emitPart_mat_miss ops st inst hhit
    refine ⟨?_, ?_, ?_⟩
    · rw [e.1, e.2.2.1, List.map_append, hs, List.range_succ, List.map_append]
      rfl
    · rw [e.1, List.map_append]
      have hnotin : matKey inst ∉ st.material_map.map Prod.fst :=
        (mlookup_eq_none_iff _ _).mp hhit
      rw [List.nodup_append]
      exact ⟨hk, List.nodup_singleton _, by
        intro a ha hb
        simp only [List.map_cons, List.map_nil, List.mem_singleton] at hb
        subst hb
        exact hnotin ha⟩
    · rw [e.1, e.2.1, List.map_append, hm]
      rfl

/-- Any state property preserved by `emitPart` is preserved by the child
fold driving the whole traversal. -/
theorem goChildren_preserves (ops : Ops ℚ) (P : ExportState → Prop)
    (hP : ∀ st inst, P st → P (emitPart ops st inst))
    (fuel : Nat) (dom : Dom) :
    ∀ (cs : List Nat) (a : ExportState × Option ExpErr),
      P a.1 → P (goChildren ops fuel dom cs a).1 := by
  intro cs
  induction cs with
  | nil => intro a ha; exact ha
  | cons c cs ihc =>
    intro a ha
    obtain ⟨s, e⟩ := a
    cases e with
    | some err =>
      show P (goChildren ops fuel dom cs (s, some err)).1
      exact ihc _ ha
    | none =>
      show P (goChildren ops fuel dom cs (export_instance ops fuel dom c s)).1
      exact ihc _ (export_preserves ops P hP fuel dom c s ha)

theorem matNames_nodup (n : Nat) :
    ((List.range n).map (fun i => "mat_" ++ toString i)).Nodup :=
  List.Nodup.map (fun a b h => matName_inj a b h) (List.nodup_range n)

/-- C2: material assignment is a function of the quantized key alone and
is stable across the traversal.  Conjuncts: (a) the name resolved for an
instance depends only on its `(R,G,B,A)` key; (b) processing a recognised
instance emits exactly one `usemtl` line, carrying that resolved name;
(c) afterwards the key maps to that name, and no existing assignment is
changed; (d) assignments persist through any further traversal (names are
never reused or reassigned); (e) from `main`'s initial state, names are
`mat_0, mat_1, …` assigned sequentially in first-seen order, keys are
distinct, each material's definition is written to the MTL output exactly
once — at first encounter, in order — and distinct keys always hold
distinct names. -/
theorem c2_material_dedup :
    (∀ (st : ExportState) (i1 i2 : Inst), matKey i1 = matKey i2 →
      assignedName st (matKey i1) = assignedName st (matKey i2)) ∧
    (∀ (ops : Ops ℚ) (st : ExportState) (inst : Inst), ∃ tail,
      (emitPart ops st inst).obj =
        st.obj ++ ObjLine.usemtl (assignedName st (matKey inst)) :: tail ∧
      ∀ l ∈ tail, ∀ name, l ≠ ObjLine.usemtl name) ∧
    (∀ (ops : Ops ℚ) (st : ExportState) (inst : Inst),
      mlookup (matKey inst) (emitPart ops st inst).material_map =
        some (assignedName st (matKey inst)) ∧
      ∀ k n, mlookup k st.material_map = some n →
        mlookup k (emitPart ops st inst).material_map = some n) ∧
    (∀ (ops : Ops ℚ) (fuel : Nat) (dom : Dom) (r : Nat) (st : ExportState)
      (k : Nat × Nat × Nat × Nat) (n : String),
      mlookup k st.material_map = some n →
      mlookup k (export_instance ops fuel dom r st).1.material_map = some n) ∧
    (∀ (ops : Ops ℚ) (fuel : Nat) (dom : Dom),
      (exportTop ops fuel dom).1.material_map.map Prod.snd =
        (List.range (exportTop ops fuel dom).1.next_mat_id).map
          (fun i => "mat_" ++ toString i) ∧
      ((exportTop ops fuel dom).1.material_map.map Prod.fst).Nodup ∧
      (exportTop ops fuel dom).1.mtl =
        (exportTop ops fuel dom).1.material_map.map (fun p => matDefOf p.1 p.2) ∧
      (∀ k1 k2 n,
        mlookup k1 (exportTop ops fuel dom).1.material_map = some n →
        mlookup k2 (exportTop ops fuel dom).1.material_map = some n →
        k1 = k2)) := by
  have hpersist : ∀ (ops : Ops ℚ) (st : ExportState) (inst : Inst) (k : Nat × Nat × Nat × Nat)
      (n : String), mlookup k st.material_map = some n →
      mlookup k (emitPart ops st inst).material_map = some n := by
    intro ops st inst k n hkn
    cases hhit : mlookup (matKey inst) st.material_map with
    | some m =>
      rw [(emitPart_mat_hit ops st inst m hhit).1]
      exact hkn
    | none =>
      rw [(emitPart_mat_miss ops st inst hhit).1]
      exact mlookup_append_some _ _ _ _ hkn
  refine ⟨?_, ?_, ?_, ?_, ?_⟩
  · intro st i1 i2 h
    rw [h]
  · intro ops st inst
    refine ⟨_, emitPart_obj ops st inst, ?_⟩
    intro l hl name
    rw [List.mem_append] at hl
    rcases hl with hl | hl <;> obtain ⟨w, _, rfl⟩ := List.mem_map.mp hl <;>
      exact fun hcon => ObjLine.noConfusion hcon
  · intro ops st inst
    constructor
    · cases hhit : mlookup (matKey inst) st.material_map with
      | some n =>
        have e := emitPart_mat_hit ops st inst n hhit
        rw [e.1, e.2.2.2, hhit]
      | none =>
        have e := emitPart_mat_miss ops st inst hhit
        rw [e.1, e.2.2.2, mlookup_append_none _ _ _ hhit]
        simp [mlookup]
    · exact fun k n => hpersist ops st inst k n
  · intro ops fuel dom r st k n hkn
    exact export_preserves ops
      (fun s => mlookup k s.material_map = some n)
      (fun s i h => hpersist ops s i k n h) fuel dom r st hkn
  · intro ops fuel dom
    have hInv : MInv (exportTop ops fuel dom).1 :=
      goChildren_preserves ops MInv (emitPart_MInv ops) fuel dom
        dom.rootChildren (initState, none) ⟨rfl, List.nodup_nil, rfl⟩
    obtain ⟨hs, hk, hm⟩ := hInv
    refine ⟨hs, hk, hm, ?_⟩
    intro k1 k2 n h1 h2
    by_contra hne
    have hm1 := mlookup_mem _ _ _ h1
    have hm2 := mlookup_mem _ _ _ h2
    have hnodup : ((exportTop ops fuel dom).1.material_map.map Prod.snd).Nodup := by
      rw [hs]
      exact matNames_nodup _
    have := List.inj_on_of_nodup_map hnodup hm1 hm2 rfl
    exact hne (congrArg Prod.fst this)

/-- Witness for `c2_material_dedup` at concrete inputs: equal keys resolve
equal names; an assignment present in a state survives `emitPart` and a
full `export_instance` run. -/
theorem c2_material_dedup_witness :
    (assignedName ⟨[], [], 0, [((1, 2, 3, 4), "mat_0")], 1⟩
        (matKey ⟨"Part", [], []⟩) =
      assignedName ⟨[], [], 0, [((1, 2, 3, 4), "mat_0")], 1⟩
        (matKey ⟨"Part", [("Name", VariantT.other)], []⟩)) ∧
    mlookup (1, 2, 3, 4)
      (export_instance unitOps 3 ⟨[], []⟩ 0
        ⟨[], [], 0, [((1, 2, 3, 4), "mat_0")], 1⟩).1.material_map =
      some "mat_0" := by
  constructor
  · exact c2_material_dedup.1 ⟨[], [], 0, [((1, 2, 3, 4), "mat_0")], 1⟩
      ⟨"Part", [], []⟩ ⟨"Part", [("Name", VariantT.other)], []⟩ rfl
  · exact c2_material_dedup.2.2.2.1 unitOps 3 ⟨[], []⟩ 0
      ⟨[], [], 0, [((1, 2, 3, 4), "mat_0")], 1⟩ (1, 2, 3, 4) "mat_0" (by decide)
